import Mathlib

/-!
# BinaryFile (src/common/FileIO.cpp)

A shallow embedding of the `BinaryFile` class: a thin handle over a C stream with typed
read/write primitives.

Conventions of the embedding

* A byte is a `Nat` (meant to be `< 256`); a stream, an object representation and a `char`
  buffer are lists of bytes.
* `int8_t`, `int16_t`, `int32_t` and `int` values are `Int`; `uint8_t` and `size_t` values are
  `Nat`; a `float` is its 32-bit pattern, a `Nat`.  Conversions between a value and its bytes in
  memory are explicit (`toMem`, `fromMem`, `toUnsigned`, `toSigned`).
* The two compile-time switches the file depends on, `SDL_BYTEORDER` and `NDEBUG`, are the two
  fields of `Build`.
* Every operation returns its outcome together with the handle afterwards, so the state after a
  thrown `std::runtime_error` stays observable.
* Automatic storage is finite: `read_string_long` takes the number of bytes the environment
  leaves for its variable-length array (`spare`), and ends in `Error.stackOverflow` when the
  array does not fit.
-/

set_option linter.unusedVariables false

namespace BinFile

/-! ## Data model -/

/-- Compile-time configuration: `bigEndian` is `SDL_BYTEORDER == SDL_BIG_ENDIAN`, `ndebug` is
whether `NDEBUG` is defined (then `assert` expands to nothing). -/
structure Build where
  bigEndian : Bool
  ndebug : Bool
  deriving DecidableEq, Repr

/-- Ways an operation can end without a result: the two `std::runtime_error`s thrown by
`fread_or_exception` / `fwrite_or_exception`, a failed `assert`, undefined behaviour
(a null `FILE*`, an access outside a buffer, a variable-length array of negative size), and the
process being killed because a variable-length array does not fit in automatic storage. -/
inductive Error where
  | fileReadError
  | fileWriteError
  | assertionFailed
  | undefinedBehaviour
  | stackOverflow
  deriving DecidableEq, Repr

/-- A C stream opened for update on a seekable file: its bytes and the current position. -/
structure FILE where
  data : List Nat
  pos : Nat
  deriving DecidableEq, Repr

/-- The class `BinaryFile`: its only member is `FILE* fp` (`none` is `NULL`). -/
structure BinaryFile where
  fp : Option FILE
  deriving DecidableEq, Repr

/-- Outcome of a member function: the value returned or the error raised, and the handle
afterwards. -/
abbrev Res (α : Type) : Type := Except Error α × BinaryFile

deriving instance DecidableEq for Except

/-! ## Object representations -/

/-- The `w` least significant bytes of `u`, least significant first. -/
def leBytes : Nat → Nat → List Nat
  | 0, _ => []
  | w + 1, u => (u % 256) :: leBytes w (u / 256)

/-- The number whose bytes, least significant first, are the list. -/
def leValue : List Nat → Nat
  | [] => 0
  | x :: xs => x + 256 * leValue xs

/-- Bytes in memory of the `w`-byte unsigned value `u` on the host. -/
def toMem (b : Build) (w : Nat) (u : Nat) : List Nat :=
  if b.bigEndian then (leBytes w u).reverse else leBytes w u

/-- Unsigned value of an object whose bytes in memory on the host are `m`. -/
def fromMem (b : Build) (m : List Nat) : Nat :=
  if b.bigEndian then leValue m.reverse else leValue m

/-- Two's-complement bit pattern of a signed value in `w` bytes. -/
def toUnsigned (w : Nat) (v : Int) : Nat := (v % 2 ^ (8 * w)).toNat

/-- Signed value of a `w`-byte two's-complement bit pattern. -/
def toSigned (w : Nat) (u : Nat) : Int :=
  if u < 2 ^ (8 * w - 1) then (u : Int) else (u : Int) - 2 ^ (8 * w)

/-! ## The C library -/

/-- `fread(ptr, size, count, fp)`: the bytes stored through `ptr`, the number of complete items
read, and the stream afterwards.  Transfers as many of the `size * count` bytes as remain. -/
def fread (size count : Nat) (f : FILE) : List Nat × Nat × FILE :=
  let got := (f.data.drop f.pos).take (size * count)
  (got, if size = 0 then 0 else got.length / size, { f with pos := f.pos + got.length })

/-- `fwrite(ptr, size, count, fp)` with `src` the bytes at `ptr`: the number of complete items
written and the stream afterwards.  The bytes replace those at the current position and extend
the file past its end. -/
def fwrite (src : List Nat) (size count : Nat) (f : FILE) : Nat × FILE :=
  let bytes := src.take (size * count)
  (if size = 0 then 0 else bytes.length / size,
   { data := f.data.take f.pos ++ List.replicate (f.pos - f.data.length) 0 ++ bytes
              ++ f.data.drop (f.pos + bytes.length),
     pos := f.pos + bytes.length })

/-- Whether a character is not the terminator `0`. -/
def nonzero (c : Nat) : Bool := c != 0

/-- `strlen` of the character array `mem`. -/
def strlen (mem : List Nat) : Nat := (mem.takeWhile nonzero).length

/-- `strncpy(dest, src, n)`: the contents of `dest` afterwards.  Copies the characters of `src`
before its first `0`, at most `n` of them, and fills up to `n` with `0`.  Undefined when `dest`
has fewer than `n` bytes or when `src` is read past its end. -/
def strncpy (dest src : List Nat) (n : Nat) : Except Error (List Nat) :=
  if n ≤ dest.length ∧ (strlen src < src.length ∨ n ≤ src.length) then
    .ok ((src.takeWhile nonzero).take n ++ List.replicate (n - strlen src) 0
          ++ dest.drop n)
  else .error .undefinedBehaviour

/-- The assignment `buf[i] = v`: undefined outside the buffer. -/
def poke (buf : List Nat) (i v : Nat) : Except Error (List Nat) :=
  if i < buf.length then .ok (buf.set i v) else .error .undefinedBehaviour

/-- The value `size - 1` in `size_t` arithmetic (64 bits). -/
def sizeMinusOne (size : Nat) : Nat := if size = 0 then 2 ^ 64 - 1 else size - 1

/-! ## BinaryFile -/

/-- The constructor: `fp = fopen(filename, options)`.  The file system decides the result of
`fopen`, given here as the contents of the opened file, or `none` when opening fails. -/
def BinaryFile.ctor (opened : Option (List Nat)) : BinaryFile :=
  { fp := opened.map (fun d => { data := d, pos := 0 }) }

/-- The destructor: `if (fp) fclose(fp)`. -/
def BinaryFile.dtor (bf : BinaryFile) : BinaryFile := { fp := none }

/-- See `BinaryFile::fread_or_exception`. -/
def fread_or_exception (size count : Nat) (bf : BinaryFile) : Res (List Nat) :=
  match bf.fp with
  | none => (.error .undefinedBehaviour, bf)
  | some f =>
    match fread size count f with
    | (buf, n, f') =>
      if n ≠ count then (.error .fileReadError, { fp := some f' })
      else (.ok buf, { fp := some f' })

/-- See `BinaryFile::fwrite_or_exception`. -/
def fwrite_or_exception (src : List Nat) (size count : Nat) (bf : BinaryFile) : Res Unit :=
  match bf.fp with
  | none => (.error .undefinedBehaviour, bf)
  | some f =>
    match fwrite src size count f with
    | (n, f') =>
      if n ≠ count then (.error .fileWriteError, { fp := some f' })
      else (.ok (), { fp := some f' })

/-- See `BinaryFile::is_open`. -/
def is_open (bf : BinaryFile) : Bool := bf.fp.isSome

/-- See `BinaryFile::rewind`. -/
def rewind (bf : BinaryFile) : BinaryFile :=
  match bf.fp with
  | some f => { fp := some { f with pos := 0 } }
  | none => bf

/-! ### Writing -/

/-- See `BinaryFile::write_i8`. -/
def write_i8 (b : Build) (value : Int) (bf : BinaryFile) : Res Unit :=
  fwrite_or_exception (toMem b 1 (toUnsigned 1 value)) 1 1 bf

/-- See `BinaryFile::write_u8`. -/
def write_u8 (b : Build) (value : Nat) (bf : BinaryFile) : Res Unit :=
  fwrite_or_exception (toMem b 1 value) 1 1 bf

/-- See `BinaryFile::write_i16`.  In the big-endian block the two bytes are stored into `out`,
an object that is not `value`; what is handed to `fwrite` is `value`. -/
def write_i16 (b : Build) (value : Int) (bf : BinaryFile) : Res Unit :=
  let valueMem := toMem b 2 (toUnsigned 2 value)
  let out : List Nat :=
    if b.bigEndian then
      let tmp := toMem b 4 (toUnsigned 4 value)
      [tmp.getD 1 0, tmp.getD 0 0]
    else []
  fwrite_or_exception valueMem 2 1 bf

/-- See `BinaryFile::write_i32`.  In the big-endian block the four bytes are stored into `out`,
an object that is not `value`; what is handed to `fwrite` is `value`. -/
def write_i32 (b : Build) (value : Int) (bf : BinaryFile) : Res Unit :=
  let valueMem := toMem b 4 (toUnsigned 4 value)
  let out : List Nat :=
    if b.bigEndian then
      let tmp := valueMem
      [tmp.getD 3 0, tmp.getD 2 0, tmp.getD 1 0, tmp.getD 0 0]
    else []
  fwrite_or_exception valueMem 4 1 bf

/-- See `BinaryFile::write_bool`: the argument of `write_u8` is the `bool` converted to
`uint8_t`. -/
def write_bool (b : Build) (value : Bool) (bf : BinaryFile) : Res Unit :=
  write_u8 b (if value then 1 else 0) bf

/-- See `BinaryFile::write_float`, on the bit pattern of the value.  The big-endian block
permutes the bytes of `out` only (`tmp` is a copy of `out`), so it has no effect on `value`
or on the stream. -/
def write_float (b : Build) (value : Nat) (bf : BinaryFile) : Res Unit :=
  fwrite_or_exception (toMem b 4 value) 4 1 bf

/-- The `len` computed by `write_string` and `write_string_long` for a string whose characters
and terminator are `mem`. -/
def stored_len (mem : List Nat) : Nat :=
  let len := strlen mem + 1
  if len > 255 then 255 else len

/-- See `BinaryFile::write_string`.  `string` holds the characters before the terminator, so the
pointer is never null and the array it points to is `string ++ [0]`. -/
def write_string (b : Build) (string : List Nat) (bf : BinaryFile) : Res Unit :=
  let mem := string ++ [0]
  if !b.ndebug && !decide (strlen mem < 254) then (.error .assertionFailed, bf)
  else
    let len := stored_len mem
    match write_u8 b (len % 256) bf with
    | (.error e, bf') => (.error e, bf')
    | (.ok _, bf') => fwrite_or_exception mem 1 len bf'

/-- See `BinaryFile::write_string_long`. -/
def write_string_long (b : Build) (string : List Nat) (bf : BinaryFile) : Res Unit :=
  let mem := string ++ [0]
  if !b.ndebug && !decide (strlen mem < 254) then (.error .assertionFailed, bf)
  else
    let len := stored_len mem
    match write_i32 b (len : Int) bf with
    | (.error e, bf') => (.error e, bf')
    | (.ok _, bf') => fwrite_or_exception mem 1 len bf'

/-- See `BinaryFile::write_raw`, with `target` the bytes at the pointer. -/
def write_raw (target : List Nat) (size : Nat) (bf : BinaryFile) : Res Unit :=
  fwrite_or_exception target size 1 bf

/-! ### Reading -/

/-- See `BinaryFile::read_u8`. -/
def read_u8 (b : Build) (bf : BinaryFile) : Res Nat :=
  match fread_or_exception 1 1 bf with
  | (.error e, bf') => (.error e, bf')
  | (.ok mem, bf') => (.ok (fromMem b mem), bf')

/-- See `BinaryFile::read_i8`. -/
def read_i8 (b : Build) (bf : BinaryFile) : Res Int :=
  match fread_or_exception 1 1 bf with
  | (.error e, bf') => (.error e, bf')
  | (.ok mem, bf') => (.ok (toSigned 1 (fromMem b mem)), bf')

/-- See `BinaryFile::read_bool`: the `uint8_t` converted to `bool`. -/
def read_bool (b : Build) (bf : BinaryFile) : Res Bool :=
  match read_u8 b bf with
  | (.error e, bf') => (.error e, bf')
  | (.ok v, bf') => (.ok (decide (v ≠ 0)), bf')

/-- The big-endian block shared by `read_i16` and `read_i16_array`: `tmp` is a 32-bit copy of
the value, and bytes 1 and 0 of `tmp` are stored into bytes 0 and 1 of the element. -/
def swap_i16 (b : Build) (inMem : List Nat) : List Nat :=
  let tmp := toMem b 4 (toUnsigned 4 (toSigned 2 (fromMem b inMem)))
  (inMem.set 0 (tmp.getD 1 0)).set 1 (tmp.getD 0 0)

/-- The big-endian block shared by `read_i32`, `read_i32_array` and `read_float`: `tmp` is a
copy of the value, and bytes 3, 2, 1, 0 of `tmp` are stored into bytes 0, 1, 2, 3. -/
def swap_32 (inMem : List Nat) : List Nat :=
  let tmp := inMem
  (((inMem.set 0 (tmp.getD 3 0)).set 1 (tmp.getD 2 0)).set 2 (tmp.getD 1 0)).set 3 (tmp.getD 0 0)

/-- See `BinaryFile::read_i16`. -/
def read_i16 (b : Build) (bf : BinaryFile) : Res Int :=
  match fread_or_exception 2 1 bf with
  | (.error e, bf') => (.error e, bf')
  | (.ok inMem, bf') =>
    let inMem := if b.bigEndian then swap_i16 b inMem else inMem
    (.ok (toSigned 2 (fromMem b inMem)), bf')

/-- The big-endian loop of `read_i16_array`, for the `n` elements still to read. -/
def read_i16_array_loop (b : Build) : Nat → BinaryFile → Res (List Int)
  | 0, bf => (.ok [], bf)
  | n + 1, bf =>
    match fread_or_exception 2 1 bf with
    | (.error e, bf') => (.error e, bf')
    | (.ok mem, bf') =>
      match read_i16_array_loop b n bf' with
      | (.error e, bf'') => (.error e, bf'')
      | (.ok rest, bf'') => (.ok (toSigned 2 (fromMem b (swap_i16 b mem)) :: rest), bf'')

/-- Split a buffer into objects of `w` bytes each. -/
def chunks (w : Nat) : Nat → List Nat → List (List Nat)
  | 0, _ => []
  | n + 1, m => m.take w :: chunks w n (m.drop w)

/-- See `BinaryFile::read_i16_array`.  The result is `target[0 .. size)` afterwards; the
counter `i` of the big-endian loop does not wrap (`size < 2^32`). -/
def read_i16_array (b : Build) (size : Nat) (bf : BinaryFile) : Res (List Int) :=
  if !b.ndebug && !decide (size > 0) then (.error .assertionFailed, bf)
  else if b.bigEndian then read_i16_array_loop b size bf
  else
    match fread_or_exception 2 size bf with
    | (.error e, bf') => (.error e, bf')
    | (.ok mem, bf') => (.ok ((chunks 2 size mem).map (fun m => toSigned 2 (fromMem b m))), bf')

/-- See `BinaryFile::read_i32`. -/
def read_i32 (b : Build) (bf : BinaryFile) : Res Int :=
  match fread_or_exception 4 1 bf with
  | (.error e, bf') => (.error e, bf')
  | (.ok inMem, bf') =>
    let inMem := if b.bigEndian then swap_32 inMem else inMem
    (.ok (toSigned 4 (fromMem b inMem)), bf')

/-- The big-endian loop of `read_i32_array`, for the `n` elements still to read. -/
def read_i32_array_loop (b : Build) : Nat → BinaryFile → Res (List Int)
  | 0, bf => (.ok [], bf)
  | n + 1, bf =>
    match fread_or_exception 4 1 bf with
    | (.error e, bf') => (.error e, bf')
    | (.ok mem, bf') =>
      match read_i32_array_loop b n bf' with
      | (.error e, bf'') => (.error e, bf'')
      | (.ok rest, bf'') => (.ok (toSigned 4 (fromMem b (swap_32 mem)) :: rest), bf'')

/-- See `BinaryFile::read_i32_array`.  The result is `target[0 .. size)` afterwards; the
counter `i` of the big-endian loop does not wrap (`size < 2^32`). -/
def read_i32_array (b : Build) (size : Nat) (bf : BinaryFile) : Res (List Int) :=
  if !b.ndebug && !decide (size > 0) then (.error .assertionFailed, bf)
  else if b.bigEndian then read_i32_array_loop b size bf
  else
    match fread_or_exception 4 size bf with
    | (.error e, bf') => (.error e, bf')
    | (.ok mem, bf') => (.ok ((chunks 4 size mem).map (fun m => toSigned 4 (fromMem b m))), bf')

/-- See `BinaryFile::read_float`: returns the bit pattern read. -/
def read_float (b : Build) (bf : BinaryFile) : Res Nat :=
  match fread_or_exception 4 1 bf with
  | (.error e, bf') => (.error e, bf')
  | (.ok inMem, bf') =>
    let inMem := if b.bigEndian then swap_32 inMem else inMem
    (.ok (fromMem b inMem), bf')

/-- The part of `read_string` and `read_string_long` after `string` has been filled:
`string[len - 1] = 0`, `strncpy(target, string, size - 1)`, `target[size - 1] = 0`. -/
def finish_string (target string : List Nat) (len size : Nat) : Except Error (List Nat) :=
  match poke string (len - 1) 0 with
  | .error e => .error e
  | .ok string =>
    match strncpy target string (sizeMinusOne size) with
    | .error e => .error e
    | .ok target => poke target (sizeMinusOne size) 0

/-- See `BinaryFile::read_string`.  `target` is the caller's buffer before the call; the result
is the buffer afterwards. -/
def read_string (b : Build) (target : List Nat) (size : Nat) (bf : BinaryFile) :
    Res (List Nat) :=
  if !b.ndebug && !decide (size > 0) then (.error .assertionFailed, bf)
  else
    match read_u8 b bf with
    | (.error e, bf') => (.error e, bf')
    | (.ok len, bf') =>
      if len = 0 then (poke target 0 0, bf')
      else
        match fread_or_exception 1 len bf' with
        | (.error e, bf'') => (.error e, bf'')
        | (.ok string, bf'') => (finish_string target string len size, bf'')

/-- See `BinaryFile::read_string_long`.  `char string[len]` is sized from the stream before
anything is read into it.  A variable-length array of negative size is undefined.  The array
lives in automatic storage, whose size the environment decides: the 255 bytes that the array of
`read_string` can take are taken to be there, and `spare` is the number of bytes available
beyond them, so the array fits when `len ≤ 255 + spare`; when it does not, the process is
killed before `fread` is reached. -/
def read_string_long (b : Build) (spare : Nat) (target : List Nat) (size : Nat)
    (bf : BinaryFile) : Res (List Nat) :=
  if !b.ndebug && !decide (size > 0) then (.error .assertionFailed, bf)
  else
    match read_i32 b bf with
    | (.error e, bf') => (.error e, bf')
    | (.ok len, bf') =>
      if len = 0 then (poke target 0 0, bf')
      else if len < 0 then (.error .undefinedBehaviour, bf')
      else if len.toNat > 255 + spare then (.error .stackOverflow, bf')
      else
        match fread_or_exception 1 len.toNat bf' with
        | (.error e, bf'') => (.error e, bf'')
        | (.ok string, bf'') => (finish_string target string len.toNat size, bf'')

/-- See `BinaryFile::read_raw`: the `size` bytes stored through `target`. -/
def read_raw (size : Nat) (bf : BinaryFile) : Res (List Nat) :=
  fread_or_exception size 1 bf

/-! ## Vocabulary of the statements -/

/-- The C string held in a character buffer: the bytes before the first `0`. -/
def cstr (buf : List Nat) : List Nat := buf.takeWhile nonzero

/-- An open handle on the stream with bytes `data` at position `pos`. -/
def handle (data : List Nat) (pos : Nat) : BinaryFile := { fp := some { data := data, pos := pos } }

/-- The stream position of a handle (`0` for a closed one). -/
def position (bf : BinaryFile) : Nat :=
  match bf.fp with
  | some f => f.pos
  | none => 0

/-- The number of bytes between the stream position of a handle and the end of its stream. -/
def remaining (bf : BinaryFile) : Nat :=
  match bf.fp with
  | some f => f.data.length - f.pos
  | none => 0

/-- The bytes of the stream of a handle (none for a closed one). -/
def contents (bf : BinaryFile) : List Nat :=
  match bf.fp with
  | some f => f.data
  | none => []

/-- The scenario `write(v); rewind(); read()` on a handle: the outcome of the write and the
outcome of the read. -/
def write_rewind_read {α : Type} (write : BinaryFile → Res Unit) (read : BinaryFile → Res α)
    (bf : BinaryFile) : Except Error Unit × Except Error α :=
  ((write bf).1, (read (rewind (write bf).2)).1)

/-- The two's-complement `int32` whose little-endian representation is `b0 b1 b2 b3`. -/
def int32_of_le (b0 b1 b2 b3 : Nat) : Int :=
  let u : Nat := b0 + 2 ^ 8 * b1 + 2 ^ 16 * b2 + 2 ^ 24 * b3
  if u < 2 ^ 31 then (u : Int) else (u : Int) - 2 ^ 32

/-- The two's-complement `int16` whose little-endian representation is `b0 b1`. -/
def int16_of_le (b0 b1 : Nat) : Int :=
  let u : Nat := b0 + 2 ^ 8 * b1
  if u < 2 ^ 15 then (u : Int) else (u : Int) - 2 ^ 16

/-- The stream bytes of consecutive 4-byte groups. -/
def flat4 : List (Nat × Nat × Nat × Nat) → List Nat
  | [] => []
  | (b0, b1, b2, b3) :: qs => b0 :: b1 :: b2 :: b3 :: flat4 qs

/-- The stream bytes of consecutive 2-byte groups. -/
def flat2 : List (Nat × Nat) → List Nat
  | [] => []
  | (b0, b1) :: qs => b0 :: b1 :: flat2 qs

/-- What is observed when the scenario `mixed_run` is run: the outcome of each of the four
writes and the position after it, the outcome of each of the four reads and the position after
it, and the length of the stream at the end. -/
structure MixedRun where
  writes : List (Except Error Unit)
  writePositions : List Nat
  u8 : Except Error Nat
  i32 : Except Error Int
  float : Except Error Nat
  string : Except Error (List Nat)
  readPositions : List Nat
  streamLength : Nat
  deriving DecidableEq

/-- The scenario `write_u8(a); write_i32(v); write_float(f); write_string(s)` on an empty
stream, then `rewind()`, then `read_u8(); read_i32(); read_float(); read_string(target, size)`. -/
def mixed_run (b : Build) (a : Nat) (v : Int) (f : Nat) (s target : List Nat) (size : Nat) :
    MixedRun :=
  let w1 := write_u8 b a (handle [] 0)
  let w2 := write_i32 b v w1.2
  let w3 := write_float b f w2.2
  let w4 := write_string b s w3.2
  let r1 := read_u8 b (rewind w4.2)
  let r2 := read_i32 b r1.2
  let r3 := read_float b r2.2
  let r4 := read_string b target size r3.2
  { writes := [w1.1, w2.1, w3.1, w4.1]
    writePositions := [position w1.2, position w2.2, position w3.2, position w4.2]
    u8 := r1.1
    i32 := r2.1
    float := r3.1
    string := r4.1
    readPositions := [position r1.2, position r2.2, position r3.2, position r4.2]
    streamLength := (contents r4.2).length }

/-- The scenario of C12 for `int16`: one `write_i16` call per element, in order, stopping at
the first call that fails. -/
def write_i16_each (b : Build) : List Int → BinaryFile → Res Unit
  | [], bf => (.ok (), bf)
  | x :: xs, bf =>
    match write_i16 b x bf with
    | (.error e, bf') => (.error e, bf')
    | (.ok _, bf') => write_i16_each b xs bf'

/-- The scenario of C12 for `int32`: one `write_i32` call per element, in order, stopping at
the first call that fails. -/
def write_i32_each (b : Build) : List Int → BinaryFile → Res Unit
  | [], bf => (.ok (), bf)
  | x :: xs, bf =>
    match write_i32 b x bf with
    | (.error e, bf') => (.error e, bf')
    | (.ok _, bf') => write_i32_each b xs bf'

/-- The bytes in host memory of consecutive `w`-byte two's-complement values. -/
def memOfInts (b : Build) (w : Nat) : List Int → List Nat
  | [] => []
  | x :: xs => toMem b w (toUnsigned w x) ++ memOfInts b w xs

/-- The string C15 describes for `n` stored payload bytes `p` and a destination of size `B`:
the longest terminator-free prefix of the first `n - 1` bytes of `p`, truncated to at most
`B - 1` characters. -/
def decoded (p : List Nat) (B : Nat) : List Nat :=
  (cstr (p.take (p.length - 1))).take (B - 1)

/-- The bit pattern of the `float` nearest to 3.14. -/
def float_3_14 : Nat := 0x4048F5C3

/-! ## Lemmas on representations and on the stream -/

theorem leBytes_length (w u : Nat) : (leBytes w u).length = w := by
  induction w generalizing u with
  | zero => rfl
  | succ n ih => simp [leBytes, ih]

theorem leValue_leBytes (w u : Nat) : leValue (leBytes w u) = u % 256 ^ w := by
  induction w generalizing u with
  | zero => simp [leBytes, leValue, Nat.mod_one]
  | succ n ih =>
    simp only [leBytes, leValue, ih]
    rw [pow_succ, Nat.mul_comm (256 ^ n) 256, Nat.mod_mul]

theorem toMem_length (b : Build) (w u : Nat) : (toMem b w u).length = w := by
  unfold toMem; split <;> simp [leBytes_length]

theorem fromMem_toMem (b : Build) (w u : Nat) : fromMem b (toMem b w u) = u % 256 ^ w := by
  unfold fromMem toMem; split <;> simp [leValue_leBytes]

theorem toSigned_toUnsigned_1 (v : Int) (h : -128 ≤ v ∧ v < 128) :
    toSigned 1 (toUnsigned 1 v % 256 ^ 1) = v := by
  simp only [toSigned, toUnsigned]; norm_num; omega

theorem fwrite_or_exception_at (pre rest src : List Nat) (size count : Nat) (hs : size ≠ 0)
    (hsrc : size * count ≤ src.length) :
    fwrite_or_exception src size count (handle (pre ++ rest) pre.length) =
      (.ok (), handle (pre ++ src.take (size * count) ++ rest.drop (size * count))
        (pre.length + size * count)) := by
  have hlen : (src.take (size * count)).length = size * count := by
    simp [List.length_take]; exact hsrc
  have hdiv : size * count / size = count := Nat.mul_div_cancel_left count (Nat.pos_of_ne_zero hs)
  simp [fwrite_or_exception, handle, fwrite, hs, hlen, hdiv, hsrc]

theorem fread_or_exception_at (pre bytes rest : List Nat) (size count : Nat) (hs : size ≠ 0)
    (hb : bytes.length = size * count) :
    fread_or_exception size count (handle (pre ++ bytes ++ rest) pre.length) =
      (.ok bytes, handle (pre ++ bytes ++ rest) (pre.length + size * count)) := by
  have hdiv : size * count / size = count := Nat.mul_div_cancel_left count (Nat.pos_of_ne_zero hs)
  simp [fread_or_exception, handle, fread, hs, ← hb, List.take_left']
  rw [hb, hdiv]


theorem fwrite_or_exception_zero (data src : List Nat) (size count : Nat) (hs : size ≠ 0)
    (hsrc : size * count ≤ src.length) :
    fwrite_or_exception src size count (handle data 0) =
      (.ok (), handle (src.take (size * count) ++ data.drop (size * count)) (size * count)) := by
  simpa using fwrite_or_exception_at [] data src size count hs hsrc

theorem fread_or_exception_zero (bytes rest : List Nat) (size count : Nat) (hs : size ≠ 0)
    (hb : bytes.length = size * count) :
    fread_or_exception size count (handle (bytes ++ rest) 0) =
      (.ok bytes, handle (bytes ++ rest) (size * count)) := by
  simpa using fread_or_exception_at [] bytes rest size count hs hb

theorem rewind_handle (data : List Nat) (pos : Nat) : rewind (handle data pos) = handle data 0 := rfl

theorem eq_handle_of_open (bf : BinaryFile) (h : is_open bf = true) :
    bf = handle (contents bf) (position bf) := by
  rcases bf with ⟨_ | f⟩
  · simp [is_open] at h
  · rfl

/-- Writing `w` bytes of an object at the start of a stream, rewinding and reading `w` bytes
gives the object's bytes back. -/
theorem write_rewind_fread (data mem : List Nat) (w : Nat) (hw : w ≠ 0) (hm : mem.length = w) :
    (fwrite_or_exception mem w 1 (handle data 0)).1 = .ok () ∧
    fread_or_exception w 1 (rewind (fwrite_or_exception mem w 1 (handle data 0)).2) =
      (.ok mem, handle (mem ++ data.drop w) w) := by
  have h1 := fwrite_or_exception_zero data mem w 1 hw (by simp [hm])
  have h2 := fread_or_exception_zero mem (data.drop w) w 1 hw (by simp [hm])
  simp only [Nat.mul_one] at h1 h2
  rw [h1]
  simp only [rewind_handle]
  rw [List.take_of_length_le (by omega)]
  exact ⟨trivial, h2⟩


theorem round_trip_u8 (b : Build) (data : List Nat) (v : Nat) (hv : v < 256) :
    write_rewind_read (write_u8 b v) (read_u8 b) (handle data 0) = (.ok (), .ok v) := by
  have h := write_rewind_fread data (toMem b 1 v) 1 (by decide) (toMem_length b 1 v)
  simp only [write_rewind_read, write_u8, read_u8, h.1, h.2, fromMem_toMem]
  simp [Nat.mod_eq_of_lt hv]

theorem round_trip_i8 (b : Build) (data : List Nat) (v : Int) (hv : -128 ≤ v ∧ v < 128) :
    write_rewind_read (write_i8 b v) (read_i8 b) (handle data 0) = (.ok (), .ok v) := by
  have h := write_rewind_fread data (toMem b 1 (toUnsigned 1 v)) 1 (by decide) (toMem_length b 1 _)
  simp only [write_rewind_read, write_i8, read_i8, h.1, h.2, fromMem_toMem]
  simp only [toSigned, toUnsigned]; norm_num; omega

theorem round_trip_bool (b : Build) (data : List Nat) (v : Bool) :
    write_rewind_read (write_bool b v) (read_bool b) (handle data 0) = (.ok (), .ok v) := by
  have h := round_trip_u8 b data (if v then 1 else 0) (by cases v <;> decide)
  simp only [write_rewind_read, Prod.mk.injEq] at h
  simp only [write_rewind_read, write_bool, read_bool, h.1]
  cases hr : read_u8 b (rewind (write_u8 b (if v = true then 1 else 0) (handle data 0)).2) with
  | mk r bf' =>
    rw [hr] at h
    obtain ⟨_, h2⟩ := h
    simp only at h2
    subst h2
    cases v <;> simp

theorem round_trip_i16 (b : Build) (hle : b.bigEndian = false) (data : List Nat) (v : Int)
    (hv : -32768 ≤ v ∧ v < 32768) :
    write_rewind_read (write_i16 b v) (read_i16 b) (handle data 0) = (.ok (), .ok v) := by
  have h := write_rewind_fread data (toMem b 2 (toUnsigned 2 v)) 2 (by decide) (toMem_length b 2 _)
  simp only [write_rewind_read, write_i16, read_i16, h.1, h.2, hle, Bool.false_eq_true, ↓reduceIte, fromMem_toMem]
  simp only [toSigned, toUnsigned]; norm_num; omega

theorem round_trip_i32 (b : Build) (hle : b.bigEndian = false) (data : List Nat) (v : Int)
    (hv : -2147483648 ≤ v ∧ v < 2147483648) :
    write_rewind_read (write_i32 b v) (read_i32 b) (handle data 0) = (.ok (), .ok v) := by
  have h := write_rewind_fread data (toMem b 4 (toUnsigned 4 v)) 4 (by decide) (toMem_length b 4 _)
  simp only [write_rewind_read, write_i32, read_i32, h.1, h.2, hle, Bool.false_eq_true, ↓reduceIte, fromMem_toMem]
  simp only [toSigned, toUnsigned]; norm_num; omega

theorem round_trip_float (b : Build) (hle : b.bigEndian = false) (data : List Nat) (v : Nat)
    (hv : v < 4294967296) :
    write_rewind_read (write_float b v) (read_float b) (handle data 0) = (.ok (), .ok v) := by
  have h := write_rewind_fread data (toMem b 4 v) 4 (by decide) (toMem_length b 4 _)
  simp only [write_rewind_read, write_float, read_float, h.1, h.2, hle, Bool.false_eq_true, ↓reduceIte, fromMem_toMem]
  simp; omega


/-! ## Round trip of the scalar primitives -/

/-- C1: on a little-endian host, for every value of each scalar type (`uint8`, `int8`, `int16`,
`int32`, `bool`, and `float` as its 32-bit pattern), `write_X(v)` on an open handle positioned
at the start of its stream, then `rewind()`, then `read_X()`: the write succeeds and the read
succeeds and returns exactly `v`. -/
theorem scalar_round_trip_little_endian (b : Build) (hle : b.bigEndian = false)
    (bf : BinaryFile) (hopen : is_open bf = true) (hpos : position bf = 0)
    (u8 : Nat) (hu8 : u8 < 256)
    (i8 : Int) (hi8 : -128 ≤ i8 ∧ i8 < 128)
    (i16 : Int) (hi16 : -32768 ≤ i16 ∧ i16 < 32768)
    (i32 : Int) (hi32 : -2147483648 ≤ i32 ∧ i32 < 2147483648)
    (bool : Bool)
    (float : Nat) (hfloat : float < 4294967296) :
    write_rewind_read (write_u8 b u8) (read_u8 b) bf = (.ok (), .ok u8) ∧
    write_rewind_read (write_i8 b i8) (read_i8 b) bf = (.ok (), .ok i8) ∧
    write_rewind_read (write_i16 b i16) (read_i16 b) bf = (.ok (), .ok i16) ∧
    write_rewind_read (write_i32 b i32) (read_i32 b) bf = (.ok (), .ok i32) ∧
    write_rewind_read (write_bool b bool) (read_bool b) bf = (.ok (), .ok bool) ∧
    write_rewind_read (write_float b float) (read_float b) bf = (.ok (), .ok float) := by
  rw [eq_handle_of_open bf hopen, hpos]
  exact ⟨round_trip_u8 b _ u8 hu8, round_trip_i8 b _ i8 hi8, round_trip_i16 b hle _ i16 hi16,
    round_trip_i32 b hle _ i32 hi32, round_trip_bool b _ bool, round_trip_float b hle _ float hfloat⟩

/-- Witness for C1: the values 200, -7, -12345, -100000, true and the bits of 3.14 on a fresh
stream that already holds five bytes. -/
theorem scalar_round_trip_little_endian_witness :
    write_rewind_read (write_u8 ⟨false, false⟩ 200) (read_u8 ⟨false, false⟩) (handle [9, 8, 7, 6, 5] 0)
      = (.ok (), .ok 200) ∧
    write_rewind_read (write_i8 ⟨false, false⟩ (-7)) (read_i8 ⟨false, false⟩) (handle [9, 8, 7, 6, 5] 0)
      = (.ok (), .ok (-7)) ∧
    write_rewind_read (write_i16 ⟨false, false⟩ (-12345)) (read_i16 ⟨false, false⟩)
      (handle [9, 8, 7, 6, 5] 0) = (.ok (), .ok (-12345)) ∧
    write_rewind_read (write_i32 ⟨false, false⟩ (-100000)) (read_i32 ⟨false, false⟩)
      (handle [9, 8, 7, 6, 5] 0) = (.ok (), .ok (-100000)) ∧
    write_rewind_read (write_bool ⟨false, false⟩ true) (read_bool ⟨false, false⟩)
      (handle [9, 8, 7, 6, 5] 0) = (.ok (), .ok true) ∧
    write_rewind_read (write_float ⟨false, false⟩ float_3_14) (read_float ⟨false, false⟩)
      (handle [9, 8, 7, 6, 5] 0) = (.ok (), .ok float_3_14) :=
  scalar_round_trip_little_endian ⟨false, false⟩ rfl (handle [9, 8, 7, 6, 5] 0) rfl rfl
    200 (by decide) (-7) (by decide) (-12345) (by decide) (-100000) (by decide) true
    float_3_14 (by decide)

/-! ## Strings on the stream -/
theorem fwrite_or_exception_at' (pre rest src data : List Nat) (p size count : Nat)
    (hd : data = pre ++ rest) (hp : p = pre.length) (hs : size ≠ 0)
    (hsrc : size * count ≤ src.length) :
    fwrite_or_exception src size count (handle data p) =
      (.ok (), handle (pre ++ src.take (size * count) ++ rest.drop (size * count))
        (p + size * count)) := by
  subst hd hp
  exact fwrite_or_exception_at pre rest src size count hs hsrc

theorem fread_or_exception_at' (pre bytes rest data : List Nat) (p size count : Nat)
    (hd : data = pre ++ bytes ++ rest) (hp : p = pre.length) (hs : size ≠ 0)
    (hb : bytes.length = size * count) :
    fread_or_exception size count (handle data p) =
      (.ok bytes, handle data (p + size * count)) := by
  subst hd hp
  exact fread_or_exception_at pre bytes rest size count hs hb

theorem toMem_one (b : Build) (u : Nat) : toMem b 1 u = [u % 256] := by
  unfold toMem; split <;> simp [leBytes]

theorem fromMem_one (b : Build) (x : Nat) : fromMem b [x] = x := by
  unfold fromMem; split <;> simp [leValue]

theorem nonzero_iff (c : Nat) : nonzero c = true ↔ c ≠ 0 := by simp [nonzero]

theorem takeWhile_append_zero (a : List Nat) :
    (a ++ [0]).takeWhile nonzero = a.takeWhile nonzero := by
  induction a with
  | nil => simp [nonzero]
  | cons x xs ih =>
    by_cases hx : nonzero x = true
    · simp [List.takeWhile_cons, hx, ih]
    · simp [List.takeWhile_cons, hx]

theorem takeWhile_of_no_zero (s : List Nat) (hs : ∀ c ∈ s, c ≠ 0) :
    s.takeWhile nonzero = s := by
  rw [List.takeWhile_eq_self_iff]
  intro c hc; exact (nonzero_iff c).2 (hs c hc)

theorem cstr_length_le (a : List Nat) : (cstr a).length ≤ a.length := by
  unfold cstr
  exact (List.takeWhile_sublist _).length_le

theorem strlen_append_zero (a : List Nat) : strlen (a ++ [0]) = (cstr a).length := by
  simp [strlen, cstr, takeWhile_append_zero]

theorem set_last (l : List Nat) (x : Nat) (hl : l ≠ []) :
    l.set (l.length - 1) x = l.dropLast ++ [x] := by
  induction l with
  | nil => exact absurd rfl hl
  | cons y ys ih =>
    cases ys with
    | nil => simp
    | cons z zs =>
      have := ih (by simp)
      simp at this ⊢
      exact this


theorem cstr_append_zero (a : List Nat) : cstr (a ++ [0]) = cstr a := takeWhile_append_zero a

theorem cstr_of_no_zero (s : List Nat) (hs : ∀ c ∈ s, c ≠ 0) : cstr s = s :=
  takeWhile_of_no_zero s hs

/-- What `read_string` leaves in `target` once `payload` has been read: the characters of the
payload without its last byte, up to the first `0` and at most `size - 1` of them; zeros up to
index `size - 1` included; the bytes of `target` from index `size` on are kept. -/
theorem finish_string_eq (target payload : List Nat) (size : Nat) (hn : payload ≠ [])
    (hsz : 1 ≤ size) (hT : size ≤ target.length) :
    finish_string target payload payload.length size =
      .ok ((cstr payload.dropLast).take (size - 1)
            ++ List.replicate (size - 1 - (cstr payload.dropLast).length + 1) 0
            ++ target.drop size) := by
  have hlen : 0 < payload.length := List.length_pos.2 hn
  have h1 : poke payload (payload.length - 1) 0 = .ok (payload.dropLast ++ [0]) := by
    simp [poke, set_last payload 0 hn, hlen]
  have hc := cstr_length_le payload.dropLast
  have h2 : strncpy target (payload.dropLast ++ [0]) (size - 1) =
      .ok ((cstr payload.dropLast).take (size - 1)
            ++ List.replicate (size - 1 - (cstr payload.dropLast).length) 0
            ++ target.drop (size - 1)) := by
    have hcond : size - 1 ≤ target.length ∧
        (strlen (payload.dropLast ++ [0]) < (payload.dropLast ++ [0]).length ∨
          size - 1 ≤ (payload.dropLast ++ [0]).length) := by
      refine ⟨by omega, Or.inl ?_⟩
      rw [strlen_append_zero]; simp at hc ⊢; omega
    unfold strncpy
    rw [if_pos hcond, strlen_append_zero, takeWhile_append_zero]
    rfl
  have hs1 : sizeMinusOne size = size - 1 := by
    unfold sizeMinusOne; rw [if_neg (by omega)]
  have hpre : ((cstr payload.dropLast).take (size - 1)
      ++ List.replicate (size - 1 - (cstr payload.dropLast).length) 0).length = size - 1 := by
    simp [List.length_take]; omega
  have hdrop : target.drop (size - 1) = target.getD (size - 1) 0 :: target.drop size := by
    have hlt : size - 1 < target.length := by omega
    rw [List.drop_eq_getElem_cons hlt]
    have : size - 1 + 1 = size := by omega
    rw [this]
    simp [List.getD_eq_getElem?_getD, List.getElem?_eq_getElem hlt]
  simp only [finish_string, h1, hs1, h2]
  unfold poke
  rw [if_pos (by simp [List.length_take, hdrop]; omega)]
  congr 1
  rw [List.append_assoc _ _ (List.drop (size - 1) target), hdrop]
  rw [← List.append_assoc, List.set_append_right _ _ (by rw [hpre])]
  · rw [hpre]; simp [List.replicate_succ', List.append_assoc]


theorem write_u8_at (b : Build) (v : Nat) (pre rest data : List Nat) (p : Nat)
    (hd : data = pre ++ rest) (hp : p = pre.length) :
    write_u8 b v (handle data p) =
      (.ok (), handle (pre ++ [v % 256] ++ rest.drop 1) (p + 1)) := by
  have h := fwrite_or_exception_at' pre rest (toMem b 1 v) data p 1 1 hd hp (by decide)
    (by simp [toMem_length])
  simpa [write_u8, toMem_one] using h

theorem read_u8_at (b : Build) (x : Nat) (pre rest data : List Nat) (p : Nat)
    (hd : data = pre ++ x :: rest) (hp : p = pre.length) :
    read_u8 b (handle data p) = (.ok x, handle data (p + 1)) := by
  have h := fread_or_exception_at' pre [x] rest data p 1 1 (by simp [hd]) hp (by decide) rfl
  simp [read_u8, h, fromMem_one]

theorem stored_len_eq (s : List Nat) (hs : ∀ c ∈ s, c ≠ 0) (hL : s.length ≤ 253) :
    strlen (s ++ [0]) = s.length ∧ stored_len (s ++ [0]) = s.length + 1 := by
  have h : strlen (s ++ [0]) = s.length := by
    rw [strlen_append_zero, cstr_of_no_zero s hs]
  refine ⟨h, ?_⟩
  unfold stored_len
  rw [h]
  simp only []
  rw [if_neg (by omega)]

theorem write_string_at (b : Build) (s pre rest data : List Nat) (p : Nat)
    (hs : ∀ c ∈ s, c ≠ 0) (hL : s.length ≤ 253)
    (hd : data = pre ++ rest) (hp : p = pre.length) :
    write_string b s (handle data p) =
      (.ok (), handle (pre ++ (s.length + 1) :: (s ++ [0]) ++ rest.drop (s.length + 2))
        (p + (s.length + 2))) := by
  obtain ⟨h1, h2⟩ := stored_len_eq s hs hL
  have hmod : (s.length + 1) % 256 % 256 = s.length + 1 := by omega
  have hw := write_u8_at b ((s.length + 1) % 256) pre rest data p hd hp
  rw [hmod] at hw
  have hf := fwrite_or_exception_at' (pre ++ [s.length + 1]) (rest.drop 1) (s ++ [0])
    (pre ++ [s.length + 1] ++ rest.drop 1) (p + 1) 1 (s.length + 1) rfl (by simp [hp])
    (by decide) (by simp)
  unfold write_string
  simp only [h1, h2]
  rw [if_neg (by simp; omega), hw]
  simp only [hf]
  simp [List.take_of_length_le, Nat.add_assoc, Nat.add_comm 1]

theorem read_string_at (b : Build) (target payload pre rest data : List Nat) (size p : Nat)
    (hn : payload ≠ []) (hsz : 1 ≤ size)
    (hd : data = pre ++ payload.length :: payload ++ rest) (hp : p = pre.length) :
    read_string b target size (handle data p) =
      (finish_string target payload payload.length size, handle data (p + (payload.length + 1))) := by
  have hlen : payload.length ≠ 0 := by simpa using hn
  have hr := read_u8_at b payload.length pre (payload ++ rest) data p (by simp [hd]) hp
  have hf := fread_or_exception_at' (pre ++ [payload.length]) payload rest data (p + 1) 1
    payload.length (by simp [hd]) (by simp [hp]) (by decide) (by simp)
  unfold read_string
  rw [if_neg (by simp; omega), hr]
  simp only [hlen, if_false, hf]
  simp [Nat.add_assoc, Nat.add_comm 1]


/-! ## Strings written and read back -/
theorem cstr_append_zero_cons (a l : List Nat) : cstr (a ++ 0 :: l) = cstr a := by
  unfold cstr
  induction a with
  | nil => simp [nonzero]
  | cons x xs ih =>
    by_cases hx : nonzero x = true
    · simp [List.takeWhile_cons, hx, ih]
    · simp [List.takeWhile_cons, hx]

/-- C3: for every string `s` of content length `L ≤ 253` without embedded terminator and every
destination of size `B ≥ 1`, `write_string(s)` at the start of a stream, `rewind()`,
`read_string(buffer, B)` succeeds and leaves in the buffer the first `B - 1` characters of `s`
followed by a terminator when `B < L + 1`, and exactly `s` followed by terminators when
`B ≥ L + 1`. -/
theorem string_round_trip_truncation (b : Build) (bf : BinaryFile) (hopen : is_open bf = true)
    (hpos : position bf = 0) (s target : List Nat) (B : Nat) (hL : s.length ≤ 253)
    (hs : ∀ c ∈ s, c ≠ 0) (hB : 1 ≤ B) (hT : target.length = B) :
    (B < s.length + 1 →
      write_rewind_read (write_string b s) (read_string b target B) bf =
        (.ok (), .ok (s.take (B - 1) ++ [0]))) ∧
    (s.length + 1 ≤ B →
      write_rewind_read (write_string b s) (read_string b target B) bf =
        (.ok (), .ok (s ++ List.replicate (B - s.length) 0)) ∧
      cstr (s ++ List.replicate (B - s.length) 0) = s) := by
  rw [eq_handle_of_open bf hopen, hpos]
  have hw := write_string_at b s [] (contents bf) (contents bf) 0 hs hL rfl rfl
  have hr := read_string_at b target (s ++ [0]) [] ((contents bf).drop (s.length + 2))
    ((s.length + 1) :: (s ++ [0]) ++ (contents bf).drop (s.length + 2)) B 0 (by simp) hB
    (by simp) rfl
  have hf := finish_string_eq target (s ++ [0]) B (by simp) hB (by omega)
  simp only [List.length_append, List.length_singleton, List.dropLast_concat,
    cstr_of_no_zero s hs] at hf hr
  have hdrop : target.drop B = [] := by simp [hT]
  simp only [write_rewind_read, hw, rewind_handle, List.nil_append, hr, hf, hdrop,
    List.append_nil]
  refine ⟨fun h => ?_, fun h => ⟨?_, ?_⟩⟩
  · have : B - 1 - s.length + 1 = 1 := by omega
    rw [this]; rfl
  · have h1 : B - 1 - s.length + 1 = B - s.length := by omega
    rw [h1, List.take_of_length_le (by omega)]
  · have h2 : B - s.length = (B - s.length - 1) + 1 := by omega
    rw [h2, List.replicate_succ, cstr_append_zero_cons, cstr_of_no_zero s hs]

/-- Witness for C3: "hello" read back into a destination of 3 bytes and into one of 8. -/
theorem string_round_trip_truncation_witness :
    write_rewind_read (write_string ⟨false, false⟩ [104, 101, 108, 108, 111])
        (read_string ⟨false, false⟩ [9, 9, 9] 3) (handle [] 0) =
      (.ok (), .ok [104, 101, 0]) ∧
    write_rewind_read (write_string ⟨false, false⟩ [104, 101, 108, 108, 111])
        (read_string ⟨false, false⟩ [9, 9, 9, 9, 9, 9, 9, 9] 8) (handle [] 0) =
      (.ok (), .ok [104, 101, 108, 108, 111, 0, 0, 0]) :=
  ⟨(string_round_trip_truncation ⟨false, false⟩ (handle [] 0) rfl rfl
      [104, 101, 108, 108, 111] [9, 9, 9] 3 (by decide) (by decide) (by decide) rfl).1
      (by decide),
   ((string_round_trip_truncation ⟨false, false⟩ (handle [] 0) rfl rfl
      [104, 101, 108, 108, 111] [9, 9, 9, 9, 9, 9, 9, 9] 8 (by decide) (by decide) (by decide)
      rfl).2 (by decide)).1⟩


/-! ## Layout of a written string -/
/-- C4 (as amended): for every string `s` of content length at most 253, the bytes
`write_string(s)` puts at the current position are one length byte equal to
`content length + 1` (which is `min(content length + 1, 255)`) followed by exactly that many
bytes, the content of `s` followed by the terminator `0`; the last byte written is the
terminator. -/
theorem write_string_layout (b : Build) (s pre rest : List Nat) (hs : ∀ c ∈ s, c ≠ 0)
    (hL : s.length ≤ 253) :
    write_string b s (handle (pre ++ rest) pre.length) =
      (.ok (), handle (pre ++ min (s.length + 1) 255 :: (s ++ [0]) ++ rest.drop (s.length + 2))
        (pre.length + (s.length + 2))) ∧
    min (s.length + 1) 255 = s.length + 1 ∧
    (s ++ [0]).length = min (s.length + 1) 255 ∧
    (s ++ [0]).getLast? = some 0 := by
  have hmin : min (s.length + 1) 255 = s.length + 1 := by omega
  refine ⟨?_, hmin, by simp [hmin], by simp⟩
  rw [hmin]
  exact write_string_at b s pre rest (pre ++ rest) pre.length hs hL rfl rfl

/-- Witness for C4: "hello" written after two bytes already in the stream. -/
theorem write_string_layout_witness :
    write_string ⟨false, false⟩ [104, 101, 108, 108, 111] (handle [1, 2] 2) =
      (.ok (), handle [1, 2, 6, 104, 101, 108, 108, 111, 0] 9) :=
  (write_string_layout ⟨false, false⟩ [104, 101, 108, 108, 111] [1, 2] [] (by decide)
    (by decide)).1

/-- C4 fails as stated for a string of 255 characters: with `assert` active the call stops at
`assert(strlen(string) < 254)` and writes nothing; with `NDEBUG` the length byte is 255 and the
255 bytes after it are all content, so the last byte written is not the terminator. -/
theorem write_string_255_chars_counterexample :
    write_string ⟨false, false⟩ (List.replicate 255 65) (handle [] 0) =
      (.error .assertionFailed, handle [] 0) ∧
    contents (write_string ⟨false, true⟩ (List.replicate 255 65) (handle [] 0)).2 =
      255 :: List.replicate 255 65 ∧
    (contents (write_string ⟨false, true⟩ (List.replicate 255 65) (handle [] 0)).2).getLast?
      = some 65 := by
  set_option maxRecDepth 100000 in decide


/-- C9 fails as stated: `write_string("")` stores the length byte 1 and the terminator, and
`read_string` consumes both, so the position advances by 2 bytes, not 1. -/
theorem empty_string_position_counterexample :
    contents (write_string ⟨false, false⟩ [] (handle [] 0)).2 = [1, 0] ∧
    position (read_string ⟨false, false⟩ [9] 1
      (rewind (write_string ⟨false, false⟩ [] (handle [] 0)).2)).2 = 2 ∧
    position (read_string ⟨false, false⟩ [9] 1
      (rewind (write_string ⟨false, false⟩ [] (handle [] 0)).2)).2 ≠ 1 := by
  decide

/-- C9 (as amended): writing the empty string with `write_string("")` to an empty stream stores
two bytes, the length byte 1 and the terminator; then `rewind()` and `read_string(buffer, B)`,
for any `B ≥ 1`, yields an empty string in the buffer and advances the stream position by
exactly 2 bytes, to the end of the stream. -/
theorem empty_string_round_trip (b : Build) (target : List Nat) (B : Nat) (hB : 1 ≤ B)
    (hT : target.length = B) :
    write_string b [] (handle [] 0) = (.ok (), handle [1, 0] 2) ∧
    read_string b target B (rewind (write_string b [] (handle [] 0)).2) =
      (.ok (List.replicate B 0), handle [1, 0] 2) ∧
    cstr (List.replicate B 0) = [] ∧
    position (rewind (write_string b [] (handle [] 0)).2) = 0 := by
  have hw := write_string_at b [] [] [] [] 0 (by simp) (by simp) rfl rfl
  have hw' : write_string b [] (handle [] 0) = (.ok (), handle [1, 0] 2) := by simpa using hw
  have hr := read_string_at b target [0] [] [] [1, 0] B 0 (by simp) hB rfl rfl
  have hf := finish_string_eq target [0] B (by simp) hB (by omega)
  have hdrop : target.drop B = [] := by simp [hT]
  have hB' : B - 1 + 1 = B := by omega
  simp [cstr, hdrop, hB'] at hf
  refine ⟨hw', ?_, ?_, ?_⟩
  · rw [hw', rewind_handle, hr]
    simp [hf]
  · cases B with
    | zero => omega
    | succ n => simp [cstr, List.replicate_succ, nonzero]
  · rw [hw']; rfl

/-- Witness for C9: a destination of 3 bytes. -/
theorem empty_string_round_trip_witness :
    read_string ⟨false, false⟩ [9, 9, 9] 3
        (rewind (write_string ⟨false, false⟩ [] (handle [] 0)).2) =
      (.ok [0, 0, 0], handle [1, 0] 2) :=
  (empty_string_round_trip ⟨false, false⟩ [9, 9, 9] 3 (by decide) rfl).2.1


/-! ## Fixed-width objects on the stream -/
theorem leBytes_two (u : Nat) : leBytes 2 u = [u % 256, u / 256 % 256] := rfl

theorem leBytes_four (u : Nat) :
    leBytes 4 u = [u % 256, u / 256 % 256, u / 256 / 256 % 256, u / 256 / 256 / 256 % 256] := rfl

theorem fwrite_object_at (m pre rest data : List Nat) (p w : Nat) (hw : w ≠ 0)
    (hm : m.length = w) (hd : data = pre ++ rest) (hp : p = pre.length) :
    fwrite_or_exception m w 1 (handle data p) =
      (.ok (), handle (pre ++ m ++ rest.drop w) (p + w)) := by
  have h := fwrite_or_exception_at' pre rest m data p w 1 hd hp hw (by simp [hm])
  simp only [Nat.mul_one] at h
  rw [List.take_of_length_le (by omega)] at h
  exact h

theorem fread_object_at (m pre rest data : List Nat) (p w : Nat) (hw : w ≠ 0)
    (hm : m.length = w) (hd : data = pre ++ m ++ rest) (hp : p = pre.length) :
    fread_or_exception w 1 (handle data p) = (.ok m, handle data (p + w)) := by
  have h := fread_or_exception_at' pre m rest data p w 1 hd hp hw (by simp [hm])
  simpa using h

/-- The bytes `write_i16` puts on the stream are those of `value` in host order. -/
theorem write_i16_at (b : Build) (v : Int) (pre rest data : List Nat) (p : Nat)
    (hd : data = pre ++ rest) (hp : p = pre.length) :
    write_i16 b v (handle data p) =
      (.ok (), handle (pre ++ toMem b 2 (toUnsigned 2 v) ++ rest.drop 2) (p + 2)) :=
  fwrite_object_at _ pre rest data p 2 (by decide) (toMem_length b 2 _) hd hp

/-- The bytes `write_i32` puts on the stream are those of `value` in host order. -/
theorem write_i32_at (b : Build) (v : Int) (pre rest data : List Nat) (p : Nat)
    (hd : data = pre ++ rest) (hp : p = pre.length) :
    write_i32 b v (handle data p) =
      (.ok (), handle (pre ++ toMem b 4 (toUnsigned 4 v) ++ rest.drop 4) (p + 4)) :=
  fwrite_object_at _ pre rest data p 4 (by decide) (toMem_length b 4 _) hd hp

/-- The bytes `write_float` puts on the stream are those of `value` in host order. -/
theorem write_float_at (b : Build) (v : Nat) (pre rest data : List Nat) (p : Nat)
    (hd : data = pre ++ rest) (hp : p = pre.length) :
    write_float b v (handle data p) =
      (.ok (), handle (pre ++ toMem b 4 v ++ rest.drop 4) (p + 4)) :=
  fwrite_object_at _ pre rest data p 4 (by decide) (toMem_length b 4 _) hd hp

theorem read_i16_at (b : Build) (m pre rest data : List Nat) (p : Nat) (hm : m.length = 2)
    (hd : data = pre ++ m ++ rest) (hp : p = pre.length) :
    read_i16 b (handle data p) =
      (.ok (toSigned 2 (fromMem b (if b.bigEndian then swap_i16 b m else m))),
        handle data (p + 2)) := by
  simp only [read_i16, fread_object_at m pre rest data p 2 (by decide) hm hd hp]

theorem read_i32_at (b : Build) (m pre rest data : List Nat) (p : Nat) (hm : m.length = 4)
    (hd : data = pre ++ m ++ rest) (hp : p = pre.length) :
    read_i32 b (handle data p) =
      (.ok (toSigned 4 (fromMem b (if b.bigEndian then swap_32 m else m))),
        handle data (p + 4)) := by
  simp only [read_i32, fread_object_at m pre rest data p 4 (by decide) hm hd hp]

theorem read_float_at (b : Build) (m pre rest data : List Nat) (p : Nat) (hm : m.length = 4)
    (hd : data = pre ++ m ++ rest) (hp : p = pre.length) :
    read_float b (handle data p) =
      (.ok (fromMem b (if b.bigEndian then swap_32 m else m)), handle data (p + 4)) := by
  simp only [read_float, fread_object_at m pre rest data p 4 (by decide) hm hd hp]

/-- Four bytes in memory, swapped by the big-endian block and read in big-endian order, give
the same value as the unswapped bytes read in little-endian order. -/
theorem fromMem_swap_32 (b : Build) (b0 b1 b2 b3 : Nat) :
    fromMem b (if b.bigEndian then swap_32 [b0, b1, b2, b3] else [b0, b1, b2, b3]) =
      b0 + 256 * b1 + 65536 * b2 + 16777216 * b3 := by
  unfold fromMem
  cases b.bigEndian <;> simp [swap_32, leValue] <;> ring

/-- C6, on a big-endian host with the value 1: `write_i16` puts `00 01` on the stream and
`write_i32` and `write_float` put `00 00 00 01`, the value's bytes most significant first,
while its little-endian representations are `01 00` and `01 00 00 00`. -/
theorem write_big_endian_host_not_swapped :
    contents (write_i16 ⟨true, false⟩ 1 (handle [] 0)).2 = [0, 1] ∧
    contents (write_i32 ⟨true, false⟩ 1 (handle [] 0)).2 = [0, 0, 0, 1] ∧
    contents (write_float ⟨true, false⟩ 1 (handle [] 0)).2 = [0, 0, 0, 1] ∧
    leBytes 2 (toUnsigned 2 1) = [1, 0] ∧
    leBytes 4 (toUnsigned 4 1) = [1, 0, 0, 0] ∧
    contents (write_i16 ⟨false, false⟩ 1 (handle [] 0)).2 = [1, 0] ∧
    contents (write_i32 ⟨false, false⟩ 1 (handle [] 0)).2 = [1, 0, 0, 0] := by
  decide

/-- C8, on a big-endian host with the stream bytes `34 12`: `read_i16` returns 0, and with the
stream bytes `84 12` it returns -1, where the little-endian decodings are 0x1234 = 4660 and
0x1284 = 4740; `read_i16_array` stores the same wrong values.  On a little-endian host the
results are the little-endian decodings. -/
theorem read_i16_big_endian_host_wrong :
    (read_i16 ⟨true, false⟩ (handle [0x34, 0x12] 0)).1 = .ok 0 ∧
    (read_i16 ⟨true, false⟩ (handle [0x84, 0x12] 0)).1 = .ok (-1) ∧
    (read_i16_array ⟨true, false⟩ 2 (handle [0x34, 0x12, 0x84, 0x12] 0)).1 = .ok [0, -1] ∧
    (read_i16 ⟨false, false⟩ (handle [0x34, 0x12] 0)).1 = .ok 4660 ∧
    (read_i16 ⟨false, false⟩ (handle [0x84, 0x12] 0)).1 = .ok 4740 ∧
    (read_i16_array ⟨false, false⟩ 2 (handle [0x34, 0x12, 0x84, 0x12] 0)).1 = .ok [4660, 4740] := by
  decide


/-! ## Decoding of 32-bit integers -/
theorem flat4_length (qs : List (Nat × Nat × Nat × Nat)) : (flat4 qs).length = 4 * qs.length := by
  induction qs with
  | nil => rfl
  | cons q qs ih => obtain ⟨a, b, c, d⟩ := q; simp [flat4, ih]; omega

theorem toSigned_four (b : Build) (b0 b1 b2 b3 : Nat) :
    toSigned 4 (fromMem b (if b.bigEndian then swap_32 [b0, b1, b2, b3] else [b0, b1, b2, b3])) =
      int32_of_le b0 b1 b2 b3 := by
  rw [fromMem_swap_32]
  simp only [toSigned, int32_of_le]
  norm_num

theorem read_i32_value_at (b : Build) (b0 b1 b2 b3 : Nat) (pre rest data : List Nat) (p : Nat)
    (hd : data = pre ++ [b0, b1, b2, b3] ++ rest) (hp : p = pre.length) :
    read_i32 b (handle data p) = (.ok (int32_of_le b0 b1 b2 b3), handle data (p + 4)) := by
  rw [read_i32_at b [b0, b1, b2, b3] pre rest data p rfl hd hp, toSigned_four]

theorem chunks_flat4 (b : Build) (hle : b.bigEndian = false) (qs : List (Nat × Nat × Nat × Nat))
    (rest : List Nat) :
    (chunks 4 qs.length (flat4 qs ++ rest)).map (fun m => toSigned 4 (fromMem b m)) =
      qs.map (fun q => int32_of_le q.1 q.2.1 q.2.2.1 q.2.2.2) := by
  induction qs with
  | nil => rfl
  | cons q qs ih =>
    obtain ⟨b0, b1, b2, b3⟩ := q
    have h := toSigned_four b b0 b1 b2 b3
    simp only [hle, Bool.false_eq_true, if_false] at h
    simp [chunks, flat4, ih, h]

theorem read_i32_array_loop_at (b : Build) (hbe : b.bigEndian = true)
    (qs : List (Nat × Nat × Nat × Nat)) (pre rest data : List Nat) (p : Nat)
    (hd : data = pre ++ flat4 qs ++ rest) (hp : p = pre.length) :
    read_i32_array_loop b qs.length (handle data p) =
      (.ok (qs.map (fun q => int32_of_le q.1 q.2.1 q.2.2.1 q.2.2.2)),
        handle data (p + 4 * qs.length)) := by
  induction qs generalizing pre p with
  | nil => rfl
  | cons q qs ih =>
    obtain ⟨b0, b1, b2, b3⟩ := q
    have hf := fread_object_at [b0, b1, b2, b3] pre (flat4 qs ++ rest) data p 4 (by decide) rfl
      (by simp [hd, flat4]) hp
    have hi := ih (pre ++ [b0, b1, b2, b3]) (p + 4) (by simp [hd, flat4]) (by simp [hp])
    have h := toSigned_four b b0 b1 b2 b3
    simp only [hbe, if_true] at h
    simp only [List.length_cons, read_i32_array_loop, hf, hi, h, List.map_cons]
    congr 2
    omega


theorem read_i32_array_at (b : Build) (qs : List (Nat × Nat × Nat × Nat)) (hqs : qs ≠ [])
    (pre rest data : List Nat) (p : Nat) (hd : data = pre ++ flat4 qs ++ rest)
    (hp : p = pre.length) :
    read_i32_array b qs.length (handle data p) =
      (.ok (qs.map (fun q => int32_of_le q.1 q.2.1 q.2.2.1 q.2.2.2)),
        handle data (p + 4 * qs.length)) := by
  have hn : 0 < qs.length := List.length_pos.2 hqs
  unfold read_i32_array
  rw [if_neg (by simp [hn])]
  cases hb : b.bigEndian with
  | true => simpa using read_i32_array_loop_at b hb qs pre rest data p hd hp
  | false =>
    have hf := fread_or_exception_at' pre (flat4 qs) rest data p 4 qs.length hd hp (by decide)
      (flat4_length qs)
    have hc := chunks_flat4 b hb qs []
    simp only [List.append_nil] at hc
    simp [hf, hc]

/-- C7: for every four stream bytes `b0 b1 b2 b3` and for either host byte order, `read_i32`
returns the two's-complement `int32` whose little-endian representation is `b0 b1 b2 b3`, that
is `b0 + 2^8 b1 + 2^16 b2 + 2^24 b3` taken modulo `2^32` as signed, and consumes the four
bytes; `read_i32_array(target, n)` stores the same decoding of each of the `n` consecutive
4-byte groups. -/
theorem read_i32_decodes_little_endian (b : Build) (pre rest : List Nat) (b0 b1 b2 b3 : Nat)
    (h0 : b0 < 256) (h1 : b1 < 256) (h2 : b2 < 256) (h3 : b3 < 256)
    (qs : List (Nat × Nat × Nat × Nat)) (hqs : qs ≠ []) :
    read_i32 b (handle (pre ++ [b0, b1, b2, b3] ++ rest) pre.length) =
      (.ok (int32_of_le b0 b1 b2 b3),
        handle (pre ++ [b0, b1, b2, b3] ++ rest) (pre.length + 4)) ∧
    leBytes 4 (toUnsigned 4 (int32_of_le b0 b1 b2 b3)) = [b0, b1, b2, b3] ∧
    (-2 ^ 31 ≤ int32_of_le b0 b1 b2 b3 ∧ int32_of_le b0 b1 b2 b3 < 2 ^ 31) ∧
    read_i32_array b qs.length (handle (pre ++ flat4 qs ++ rest) pre.length) =
      (.ok (qs.map (fun q => int32_of_le q.1 q.2.1 q.2.2.1 q.2.2.2)),
        handle (pre ++ flat4 qs ++ rest) (pre.length + 4 * qs.length)) := by
  refine ⟨read_i32_value_at b b0 b1 b2 b3 pre rest _ _ rfl rfl, ?_, ?_,
    read_i32_array_at b qs hqs pre rest _ _ rfl rfl⟩
  · rw [leBytes_four]
    simp only [toUnsigned, int32_of_le]
    norm_num
    split <;> (refine ⟨?_, ?_, ?_, ?_⟩ <;> omega)
  · simp only [int32_of_le]
    norm_num
    split <;> constructor <;> omega

/-- Witness for C7: the bytes `60 79 FE FF` decode to -100000, and two groups decode to 1
and -2, on a big-endian host. -/
theorem read_i32_decodes_little_endian_witness :
    read_i32 ⟨true, false⟩ (handle ([7] ++ [0x60, 0x79, 0xFE, 0xFF] ++ [5]) 1) =
      (.ok (-100000), handle ([7] ++ [0x60, 0x79, 0xFE, 0xFF] ++ [5]) 5) ∧
    read_i32_array ⟨true, false⟩ 2 (handle ([7] ++ [1, 0, 0, 0, 254, 255, 255, 255] ++ [5]) 1) =
      (.ok [1, -2], handle ([7] ++ [1, 0, 0, 0, 254, 255, 255, 255] ++ [5]) 9) :=
  have h := read_i32_decodes_little_endian ⟨true, false⟩ [7] [5] 0x60 0x79 0xFE 0xFF
    (by decide) (by decide) (by decide) (by decide)
    [(1, 0, 0, 0), (254, 255, 255, 255)] (by decide)
  ⟨h.1, h.2.2.2⟩


/-! ## Layout of a string written with a 32-bit length -/
theorem write_string_long_at (b : Build) (s pre rest data : List Nat) (p : Nat)
    (hs : ∀ c ∈ s, c ≠ 0) (hL : s.length ≤ 253)
    (hd : data = pre ++ rest) (hp : p = pre.length) :
    write_string_long b s (handle data p) =
      (.ok (), handle (pre ++ toMem b 4 (s.length + 1) ++ (s ++ [0]) ++ rest.drop (s.length + 5))
        (p + (s.length + 5))) := by
  obtain ⟨h1, h2⟩ := stored_len_eq s hs hL
  have hw := write_i32_at b ((s.length + 1 : Nat) : Int) pre rest data p hd hp
  have hu : toUnsigned 4 ((s.length + 1 : Nat) : Int) = s.length + 1 := by
    simp only [toUnsigned]; norm_num; omega
  rw [hu] at hw
  have hf := fwrite_or_exception_at' (pre ++ toMem b 4 (s.length + 1)) (rest.drop 4) (s ++ [0])
    (pre ++ toMem b 4 (s.length + 1) ++ rest.drop 4) (p + 4) 1 (s.length + 1) rfl
    (by simp [hp, toMem_length]) (by decide) (by simp)
  unfold write_string_long
  simp only [h1, h2]
  rw [if_neg (by simp; omega), hw]
  simp only [hf]
  have e : 4 + (s.length + 1) = s.length + 5 := by omega
  simp [List.take_of_length_le, Nat.add_assoc, e]

/-- On a little-endian host, for every string `s` of content length at most 253,
`write_string_long(s)` puts at the current position the four bytes `L+1, 0, 0, 0` of the
`int32` value `content length + 1` in little-endian order, followed by the payload
`s ++ [0]` that `write_string(s)` puts after its length byte. -/
theorem write_string_long_layout_little_endian (b : Build) (hle : b.bigEndian = false)
    (s pre rest : List Nat) (hs : ∀ c ∈ s, c ≠ 0) (hL : s.length ≤ 253) :
    write_string_long b s (handle (pre ++ rest) pre.length) =
      (.ok (), handle (pre ++ [s.length + 1, 0, 0, 0] ++ (s ++ [0]) ++ rest.drop (s.length + 5))
        (pre.length + (s.length + 5))) ∧
    write_string b s (handle (pre ++ rest) pre.length) =
      (.ok (), handle (pre ++ [s.length + 1] ++ (s ++ [0]) ++ rest.drop (s.length + 2))
        (pre.length + (s.length + 2))) ∧
    leBytes 4 (toUnsigned 4 ((s.length + 1 : Nat) : Int)) = [s.length + 1, 0, 0, 0] := by
  have hb : leBytes 4 (s.length + 1) = [s.length + 1, 0, 0, 0] := by
    rw [leBytes_four]
    refine List.cons_eq_cons.2 ⟨by omega, List.cons_eq_cons.2 ⟨by omega,
      List.cons_eq_cons.2 ⟨by omega, List.cons_eq_cons.2 ⟨by omega, rfl⟩⟩⟩⟩
  have hu : toUnsigned 4 ((s.length + 1 : Nat) : Int) = s.length + 1 := by
    simp only [toUnsigned]; norm_num; omega
  refine ⟨?_, ?_, by rw [hu, hb]⟩
  · rw [write_string_long_at b s pre rest _ _ hs hL rfl rfl]
    simp [toMem, hle, hb]
  · rw [write_string_at b s pre rest _ _ hs hL rfl rfl]
    simp

/-- C5, on a big-endian host with the string "hello": `write_string_long` stores the length
field as `00 00 00 06`, most significant byte first, where the little-endian order is
`06 00 00 00`; the payload after it is the one `write_string` stores.  On a little-endian host
the length field is `06 00 00 00`. -/
theorem write_string_long_big_endian_host :
    contents (write_string_long ⟨true, false⟩ [104, 101, 108, 108, 111] (handle [] 0)).2 =
      [0, 0, 0, 6] ++ [104, 101, 108, 108, 111, 0] ∧
    leBytes 4 (toUnsigned 4 6) = [6, 0, 0, 0] ∧
    contents (write_string ⟨true, false⟩ [104, 101, 108, 108, 111] (handle [] 0)).2 =
      [6] ++ [104, 101, 108, 108, 111, 0] ∧
    contents (write_string_long ⟨false, false⟩ [104, 101, 108, 108, 111] (handle [] 0)).2 =
      [6, 0, 0, 0] ++ [104, 101, 108, 108, 111, 0] := by
  decide


/-! ## The mixed write and read scenario -/
/-- C2, on a big-endian host with a = 42, b = -100000, f = bits of 3.14, s = "hello": the four
writes and the four reads succeed and consume matching bytes, `read_u8` returns 42 and
`read_string` returns "hello", but `read_i32` returns 1618607871 (0x6079FEFF) and `read_float`
returns the pattern 0xC3F54840: the values with their bytes reversed. -/
theorem mixed_run_big_endian_host :
    mixed_run ⟨true, false⟩ 42 (-100000) float_3_14 [104, 101, 108, 108, 111]
        [9, 9, 9, 9, 9, 9, 9, 9] 8 =
      { writes := [.ok (), .ok (), .ok (), .ok ()]
        writePositions := [1, 5, 9, 16]
        u8 := .ok 42
        i32 := .ok 1618607871
        float := .ok 0xC3F54840
        string := .ok [104, 101, 108, 108, 111, 0, 0, 0]
        readPositions := [1, 5, 9, 16]
        streamLength := 16 } := by
  decide

theorem toSigned_toUnsigned_four (v : Int) (hv : -2147483648 ≤ v ∧ v < 2147483648) :
    toSigned 4 (toUnsigned 4 v % 256 ^ 4) = v := by
  simp only [toSigned, toUnsigned]; norm_num; omega

/-- On a little-endian host the scenario of C2 returns what was written, for every `uint8`
`a`, `int32` `v`, `float` pattern `f` and string `s` of content length at most 253, read into a
destination of size at least `length(s) + 1`; every read ends where the matching write ended,
and the last one at the end of the stream. -/
theorem mixed_run_little_endian_host (b : Build) (hle : b.bigEndian = false)
    (a : Nat) (ha : a < 256) (v : Int) (hv : -2147483648 ≤ v ∧ v < 2147483648)
    (f : Nat) (hf : f < 4294967296) (s target : List Nat) (size : Nat)
    (hs : ∀ c ∈ s, c ≠ 0) (hL : s.length ≤ 253) (hsz : s.length + 1 ≤ size)
    (hT : target.length = size) :
    mixed_run b a v f s target size =
      { writes := [.ok (), .ok (), .ok (), .ok ()]
        writePositions := [1, 5, 9, s.length + 11]
        u8 := .ok a
        i32 := .ok v
        float := .ok f
        string := .ok (s ++ List.replicate (size - s.length) 0)
        readPositions := [1, 5, 9, s.length + 11]
        streamLength := s.length + 11 } := by
  have hv' := toSigned_toUnsigned_four v hv
  have hf' : fromMem b (toMem b 4 f) = f := by rw [fromMem_toMem]; omega
  rw [← fromMem_toMem b] at hv'
  have hl1 := toMem_length b 4 (toUnsigned 4 v)
  have hl2 := toMem_length b 4 f
  obtain ⟨m1, hm1⟩ : ∃ m1, toMem b 4 (toUnsigned 4 v) = m1 := ⟨_, rfl⟩
  obtain ⟨m2, hm2⟩ : ∃ m2, toMem b 4 f = m2 := ⟨_, rfl⟩
  rw [hm1] at hv' hl1
  rw [hm2] at hf' hl2
  have hw1 : write_u8 b a (handle [] 0) = (.ok (), handle [a] 1) := by
    have := write_u8_at b a [] [] [] 0 rfl rfl
    simpa [Nat.mod_eq_of_lt ha] using this
  have hw2 : write_i32 b v (handle [a] 1) = (.ok (), handle ([a] ++ m1) 5) := by
    have := write_i32_at b v [a] [] [a] 1 rfl rfl
    simpa [hm1] using this
  have hw3 : write_float b f (handle ([a] ++ m1) 5) = (.ok (), handle ([a] ++ m1 ++ m2) 9) := by
    have := write_float_at b f ([a] ++ m1) [] ([a] ++ m1) 5 (by simp) (by simp [hl1])
    simpa [hm2] using this
  have hw4 : write_string b s (handle ([a] ++ m1 ++ m2) 9) =
      (.ok (), handle ([a] ++ m1 ++ m2 ++ (s.length + 1) :: (s ++ [0])) (s.length + 11)) := by
    have := write_string_at b s ([a] ++ m1 ++ m2) [] ([a] ++ m1 ++ m2) 9 hs hL (by simp)
      (by simp [hl1, hl2])
    rw [this]
    simp [Nat.add_comm 9]
  obtain ⟨D, hD⟩ : ∃ D, D = [a] ++ m1 ++ m2 ++ (s.length + 1) :: (s ++ [0]) := ⟨_, rfl⟩
  rw [← hD] at hw4
  have hDlen : D.length = s.length + 11 := by simp [hD, hl1, hl2]; omega
  have hr1 : read_u8 b (handle D 0) = (.ok a, handle D 1) :=
    read_u8_at b a [] (m1 ++ m2 ++ (s.length + 1) :: (s ++ [0])) D 0 (by simp [hD]) rfl
  have hr2 : read_i32 b (handle D 1) = (.ok v, handle D 5) := by
    have := read_i32_at b m1 [a] (m2 ++ (s.length + 1) :: (s ++ [0])) D 1 hl1
      (by simp [hD]) rfl
    rw [this]
    simp [hle, hv']
  have hr3 : read_float b (handle D 5) = (.ok f, handle D 9) := by
    have := read_float_at b m2 ([a] ++ m1) ((s.length + 1) :: (s ++ [0])) D 5 hl2
      (by simp [hD]) (by simp [hl1])
    rw [this]
    simp [hle, hf']
  have hr4 : read_string b target size (handle D 9) =
      (.ok (s ++ List.replicate (size - s.length) 0), handle D (s.length + 11)) := by
    have := read_string_at b target (s ++ [0]) ([a] ++ m1 ++ m2) [] D size 9 (by simp)
      (by omega) (by simp [hD]) (by simp [hl1, hl2])
    rw [this]
    have hfin := finish_string_eq target (s ++ [0]) size (by simp) (by omega) (by omega)
    simp only [List.length_append, List.length_singleton, List.dropLast_concat,
      cstr_of_no_zero s hs] at hfin ⊢
    rw [hfin]
    have h1 : size - 1 - s.length + 1 = size - s.length := by omega
    have hdrop : target.drop size = [] := by simp [hT]
    rw [h1, List.take_of_length_le (by omega), hdrop]
    simp [Nat.add_comm 9, Nat.add_assoc]
  simp only [mixed_run, hw1, hw2, hw3, hw4, rewind_handle, hr1, hr2, hr3, hr4]
  simp [position, contents, handle, hDlen]


/-! ## Short reads -/
/-- A raw read on an open handle with fewer bytes left than requested throws the read error. -/
theorem fread_or_exception_short (size count : Nat) (bf : BinaryFile)
    (hopen : is_open bf = true) (h : remaining bf < size * count) :
    (fread_or_exception size count bf).1 = .error .fileReadError := by
  rcases bf with ⟨_ | f⟩
  · simp [is_open] at hopen
  · simp only [remaining] at h
    have hs : size ≠ 0 := by rintro rfl; simp at h
    have hlt : (f.data.length - f.pos) / size < count :=
      Nat.div_lt_of_lt_mul h
    simp only [fread_or_exception, fread, hs, if_false, List.length_take, List.length_drop]
    rw [Nat.min_eq_right (by omega), if_pos (by omega)]

/-- A raw read on an open handle either throws the read error or succeeds, leaves the handle
open and consumes exactly the bytes requested. -/
theorem fread_or_exception_cases (size count : Nat) (bf : BinaryFile)
    (hopen : is_open bf = true) :
    ((fread_or_exception size count bf).1 = .error .fileReadError ∨
      (∃ buf, (fread_or_exception size count bf).1 = .ok buf ∧
        remaining (fread_or_exception size count bf).2 + size * count = remaining bf)) ∧
    is_open (fread_or_exception size count bf).2 = true := by
  rcases bf with ⟨_ | f⟩
  · simp [is_open] at hopen
  · simp only [fread_or_exception, fread]
    by_cases hn : (if size = 0 then 0
        else (List.take (size * count) (List.drop f.pos f.data)).length / size) = count
    · rw [if_neg (by simpa using hn)]
      refine ⟨Or.inr ⟨_, rfl, ?_⟩, rfl⟩
      simp only [remaining, List.length_take, List.length_drop]
      by_cases hs : size = 0
      · subst hs; simp
      · rw [if_neg hs] at hn
        have hle : size * count ≤ min (size * count) (f.data.length - f.pos) := by
          have := Nat.div_mul_le_self (min (size * count) (f.data.length - f.pos)) size
          simp only [List.length_take, List.length_drop] at hn
          rw [hn, Nat.mul_comm] at this
          exact this
        have : min (size * count) (f.data.length - f.pos) = size * count :=
          Nat.le_antisymm (Nat.min_le_left _ _) hle
        rw [this]
        have : size * count ≤ f.data.length - f.pos := by
          have := Nat.min_le_right (size * count) (f.data.length - f.pos)
          omega
        omega
    · rw [if_pos (by simpa using hn)]
      exact ⟨Or.inl rfl, rfl⟩


theorem read_u8_short (b : Build) (bf : BinaryFile) (hopen : is_open bf = true)
    (h : remaining bf < 1) : (read_u8 b bf).1 = .error .fileReadError := by
  have hf := fread_or_exception_short 1 1 bf hopen (by simpa using h)
  unfold read_u8
  cases hr : fread_or_exception 1 1 bf with
  | mk r bf' => rw [hr] at hf; simp only at hf; subst hf; rfl

theorem read_i32_short (b : Build) (bf : BinaryFile) (hopen : is_open bf = true)
    (h : remaining bf < 4) : (read_i32 b bf).1 = .error .fileReadError := by
  have hf := fread_or_exception_short 4 1 bf hopen (by simpa using h)
  unfold read_i32
  cases hr : fread_or_exception 4 1 bf with
  | mk r bf' => rw [hr] at hf; simp only at hf; subst hf; rfl

theorem read_i16_array_loop_short (b : Build) (n : Nat) (bf : BinaryFile)
    (hopen : is_open bf = true) (h : remaining bf < 2 * n) :
    (read_i16_array_loop b n bf).1 = .error .fileReadError := by
  induction n generalizing bf with
  | zero => simp at h
  | succ n ih =>
    unfold read_i16_array_loop
    obtain ⟨hc, ho⟩ := fread_or_exception_cases 2 1 bf hopen
    cases hr : fread_or_exception 2 1 bf with
    | mk r bf' =>
      rw [hr] at hc ho
      simp only at hc ho
      rcases hc with hc | ⟨buf, hc, hrem⟩
      · subst hc; rfl
      · subst hc
        have := ih bf' ho (by omega)
        simp only
        cases hl : read_i16_array_loop b n bf' with
        | mk r' bf'' => rw [hl] at this; simp only at this; subst this; rfl

theorem read_i32_array_loop_short (b : Build) (n : Nat) (bf : BinaryFile)
    (hopen : is_open bf = true) (h : remaining bf < 4 * n) :
    (read_i32_array_loop b n bf).1 = .error .fileReadError := by
  induction n generalizing bf with
  | zero => simp at h
  | succ n ih =>
    unfold read_i32_array_loop
    obtain ⟨hc, ho⟩ := fread_or_exception_cases 4 1 bf hopen
    cases hr : fread_or_exception 4 1 bf with
    | mk r bf' =>
      rw [hr] at hc ho
      simp only at hc ho
      rcases hc with hc | ⟨buf, hc, hrem⟩
      · subst hc; rfl
      · subst hc
        have := ih bf' ho (by omega)
        simp only
        cases hl : read_i32_array_loop b n bf' with
        | mk r' bf'' => rw [hl] at this; simp only at this; subst this; rfl

theorem read_u8_open (b : Build) (bf : BinaryFile) (hopen : is_open bf = true) :
    is_open (read_u8 b bf).2 = true := by
  have ho := (fread_or_exception_cases 1 1 bf hopen).2
  unfold read_u8
  cases hr : fread_or_exception 1 1 bf with
  | mk r bf' => rw [hr] at ho; cases r <;> exact ho

theorem read_i32_open (b : Build) (bf : BinaryFile) (hopen : is_open bf = true) :
    is_open (read_i32 b bf).2 = true := by
  have ho := (fread_or_exception_cases 4 1 bf hopen).2
  unfold read_i32
  cases hr : fread_or_exception 4 1 bf with
  | mk r bf' => rw [hr] at ho; cases r <;> exact ho


/-- Short reads that are reported.  For every read primitive and every open stream in which
fewer bytes remain than the primitive requires, the call ends with the read failure of
`fread_or_exception`: `read_u8`, `read_i8`, `read_bool` with no byte left; `read_i16` with fewer
than 2; `read_i32`, `read_float` with fewer than 4; `read_i16_array(n)` with fewer than `2n`;
`read_i32_array(n)` with fewer than `4n`; `read_raw(n)` with fewer than `n`; `read_string` and
`read_string_long` (destination size at least 1) with an incomplete length field, or with fewer
bytes after the length field than the stored length, for `read_string_long` as long as the
stored length fits in automatic storage. -/
theorem short_read_reports_failure (b : Build) (bf : BinaryFile) (hopen : is_open bf = true)
    (n : Nat) (target : List Nat) (size : Nat) (hsize : 1 ≤ size) (spare : Nat) :
    (remaining bf < 1 → (read_u8 b bf).1 = .error .fileReadError) ∧
    (remaining bf < 1 → (read_i8 b bf).1 = .error .fileReadError) ∧
    (remaining bf < 1 → (read_bool b bf).1 = .error .fileReadError) ∧
    (remaining bf < 2 → (read_i16 b bf).1 = .error .fileReadError) ∧
    (remaining bf < 4 → (read_i32 b bf).1 = .error .fileReadError) ∧
    (remaining bf < 4 → (read_float b bf).1 = .error .fileReadError) ∧
    (remaining bf < 2 * n → (read_i16_array b n bf).1 = .error .fileReadError) ∧
    (remaining bf < 4 * n → (read_i32_array b n bf).1 = .error .fileReadError) ∧
    (remaining bf < n → (read_raw n bf).1 = .error .fileReadError) ∧
    (remaining bf < 1 → (read_string b target size bf).1 = .error .fileReadError) ∧
    (∀ len : Nat, (read_u8 b bf).1 = .ok len → remaining (read_u8 b bf).2 < len →
      (read_string b target size bf).1 = .error .fileReadError) ∧
    (remaining bf < 4 → (read_string_long b spare target size bf).1 = .error .fileReadError) ∧
    (∀ len : Int, (read_i32 b bf).1 = .ok len → (remaining (read_i32 b bf).2 : Int) < len →
      len ≤ 255 + spare →
      (read_string_long b spare target size bf).1 = .error .fileReadError) := by
  have hassert : ¬ ((!b.ndebug && !decide (size > 0)) = true) := by
    simp; intro _; omega
  refine ⟨read_u8_short b bf hopen, ?_, ?_, ?_, read_i32_short b bf hopen, ?_, ?_, ?_, ?_, ?_,
    ?_, ?_, ?_⟩
  · intro h
    have hf := fread_or_exception_short 1 1 bf hopen (by simpa using h)
    unfold read_i8
    cases hr : fread_or_exception 1 1 bf with
    | mk r bf' => rw [hr] at hf; simp only at hf; subst hf; rfl
  · intro h
    have hf := read_u8_short b bf hopen h
    unfold read_bool
    cases hr : read_u8 b bf with
    | mk r bf' => rw [hr] at hf; simp only at hf; subst hf; rfl
  · intro h
    have hf := fread_or_exception_short 2 1 bf hopen (by simpa using h)
    unfold read_i16
    cases hr : fread_or_exception 2 1 bf with
    | mk r bf' => rw [hr] at hf; simp only at hf; subst hf; rfl
  · intro h
    have hf := fread_or_exception_short 4 1 bf hopen (by simpa using h)
    unfold read_float
    cases hr : fread_or_exception 4 1 bf with
    | mk r bf' => rw [hr] at hf; simp only at hf; subst hf; rfl
  · intro h
    have hn : 0 < n := by omega
    unfold read_i16_array
    rw [if_neg (by simp [hn])]
    cases hb : b.bigEndian with
    | true => simpa using read_i16_array_loop_short b n bf hopen h
    | false =>
      have hf := fread_or_exception_short 2 n bf hopen h
      simp only [Bool.false_eq_true, if_false]
      cases hr : fread_or_exception 2 n bf with
      | mk r bf' => rw [hr] at hf; simp only at hf; subst hf; rfl
  · intro h
    have hn : 0 < n := by omega
    unfold read_i32_array
    rw [if_neg (by simp [hn])]
    cases hb : b.bigEndian with
    | true => simpa using read_i32_array_loop_short b n bf hopen h
    | false =>
      have hf := fread_or_exception_short 4 n bf hopen h
      simp only [Bool.false_eq_true, if_false]
      cases hr : fread_or_exception 4 n bf with
      | mk r bf' => rw [hr] at hf; simp only at hf; subst hf; rfl
  · intro h
    exact fread_or_exception_short n 1 bf hopen (by simpa using h)
  · intro h
    have hf := read_u8_short b bf hopen h
    unfold read_string
    rw [if_neg hassert]
    cases hr : read_u8 b bf with
    | mk r bf' => rw [hr] at hf; simp only at hf; subst hf; rfl
  · intro len hlen hrem
    have ho := read_u8_open b bf hopen
    unfold read_string
    rw [if_neg hassert]
    cases hr : read_u8 b bf with
    | mk r bf' =>
      rw [hr] at hlen hrem ho
      simp only at hlen hrem ho
      subst hlen
      have hne : len ≠ 0 := by omega
      have hf := fread_or_exception_short 1 len bf' ho (by simpa using hrem)
      simp only [hne, if_false]
      cases hr2 : fread_or_exception 1 len bf' with
      | mk r2 bf'' => rw [hr2] at hf; simp only at hf; subst hf; rfl
  · intro h
    have hf := read_i32_short b bf hopen h
    unfold read_string_long
    rw [if_neg hassert]
    cases hr : read_i32 b bf with
    | mk r bf' => rw [hr] at hf; simp only at hf; subst hf; rfl
  · intro len hlen hrem hfit
    have ho := read_i32_open b bf hopen
    unfold read_string_long
    rw [if_neg hassert]
    cases hr : read_i32 b bf with
    | mk r bf' =>
      rw [hr] at hlen hrem ho
      simp only at hlen hrem ho
      subst hlen
      have hpos : 0 < len := by omega
      have hne : len ≠ 0 := by omega
      have hnn : ¬ len < 0 := by omega
      have hst : ¬ len.toNat > 255 + spare := by omega
      have hf := fread_or_exception_short 1 len.toNat bf' ho (by omega)
      simp only [hne, hnn, hst, if_false]
      cases hr2 : fread_or_exception 1 len.toNat bf' with
      | mk r2 bf'' => rw [hr2] at hf; simp only at hf; subst hf; rfl

/-- Reported short reads on a stream positioned at its end and on the streams `05 01 02` and
`05 00 00 00 01 02`, whose stored string length 5 exceeds the two bytes that follow. -/
theorem short_read_reports_failure_witness :
    (read_u8 ⟨false, false⟩ (handle [7, 7] 2)).1 = .error .fileReadError ∧
    (read_i32_array ⟨true, false⟩ 2 (handle [1, 0, 0, 0, 2, 0] 0)).1 = .error .fileReadError ∧
    (read_string ⟨false, false⟩ [9, 9, 9] 3 (handle [5, 1, 2] 0)).1 = .error .fileReadError ∧
    (read_string_long ⟨false, false⟩ 0 [9, 9, 9] 3 (handle [5, 0, 0, 0, 1, 2] 0)).1 =
      .error .fileReadError :=
  ⟨(short_read_reports_failure ⟨false, false⟩ (handle [7, 7] 2) rfl 0 [9] 1 (by decide) 0).1
      (by decide),
   (short_read_reports_failure ⟨true, false⟩ (handle [1, 0, 0, 0, 2, 0] 0) rfl 2 [9] 1
      (by decide) 0).2.2.2.2.2.2.2.1 (by decide),
   (short_read_reports_failure ⟨false, false⟩ (handle [5, 1, 2] 0) rfl 0 [9, 9, 9] 3
      (by decide) 0).2.2.2.2.2.2.2.2.2.2.1 5 (by decide) (by decide),
   (short_read_reports_failure ⟨false, false⟩ (handle [5, 0, 0, 0, 1, 2] 0) rfl 0 [9, 9, 9] 3
      (by decide) 0).2.2.2.2.2.2.2.2.2.2.2.2 5 (by decide) (by decide) (by decide)⟩


/-! ## Decoding of 16-bit integers -/
/-- On a little-endian host the bytes of an object in memory are its little-endian bytes; on a
big-endian host they are the same bytes in the opposite order. -/
theorem toMem_host_order (b : Build) (w u : Nat) :
    (b.bigEndian = false → toMem b w u = leBytes w u) ∧
    (b.bigEndian = true → toMem b w u = (leBytes w u).reverse) := by
  unfold toMem
  constructor <;> intro h <;> simp [h]

theorem flat2_length (qs : List (Nat × Nat)) : (flat2 qs).length = 2 * qs.length := by
  induction qs with
  | nil => rfl
  | cons q qs ih => obtain ⟨a, b⟩ := q; simp [flat2, ih]; omega

theorem toSigned_two_little_endian (b : Build) (hle : b.bigEndian = false) (b0 b1 : Nat) :
    toSigned 2 (fromMem b [b0, b1]) = int16_of_le b0 b1 := by
  simp only [toSigned, int16_of_le, fromMem, hle, leValue]
  norm_num

theorem chunks_flat2 (b : Build) (hle : b.bigEndian = false) (qs : List (Nat × Nat))
    (rest : List Nat) :
    (chunks 2 qs.length (flat2 qs ++ rest)).map (fun m => toSigned 2 (fromMem b m)) =
      qs.map (fun q => int16_of_le q.1 q.2) := by
  induction qs with
  | nil => rfl
  | cons q qs ih =>
    obtain ⟨b0, b1⟩ := q
    simp [chunks, flat2, ih, toSigned_two_little_endian b hle]

/-- On a little-endian host `read_i16` returns the two's-complement `int16` whose little-endian
representation is `b0 b1`, and `read_i16_array(target, n)`, `n ≥ 1`, stores that decoding of
each of the `n` consecutive 2-byte groups. -/
theorem read_i16_little_endian_host (b : Build) (hle : b.bigEndian = false)
    (pre rest : List Nat) (b0 b1 : Nat) (qs : List (Nat × Nat)) (hqs : qs ≠ []) :
    read_i16 b (handle (pre ++ [b0, b1] ++ rest) pre.length) =
      (.ok (int16_of_le b0 b1), handle (pre ++ [b0, b1] ++ rest) (pre.length + 2)) ∧
    read_i16_array b qs.length (handle (pre ++ flat2 qs ++ rest) pre.length) =
      (.ok (qs.map (fun q => int16_of_le q.1 q.2)),
        handle (pre ++ flat2 qs ++ rest) (pre.length + 2 * qs.length)) := by
  have hn : 0 < qs.length := List.length_pos.2 hqs
  constructor
  · rw [read_i16_at b [b0, b1] pre rest _ _ rfl rfl rfl]
    simp [hle, toSigned_two_little_endian b hle]
  · have hf := fread_or_exception_at' pre (flat2 qs) rest _ pre.length 2 qs.length rfl rfl
      (by decide) (flat2_length qs)
    have hc := chunks_flat2 b hle qs []
    simp only [List.append_nil] at hc
    unfold read_i16_array
    rw [if_neg (by simp [hn])]
    simp only [hle, Bool.false_eq_true, if_false]
    rw [hf]
    simp only [hc]

theorem sign_extension_bytes (b0 b1 : Nat) (h0 : b0 < 256) (h1 : b1 < 256) :
    toUnsigned 4 (toSigned 2 (b1 + 256 * b0)) / 256 / 256 % 256 = (if b0 < 128 then 0 else 255) ∧
    toUnsigned 4 (toSigned 2 (b1 + 256 * b0)) / 256 / 256 / 256 % 256 =
      (if b0 < 128 then 0 else 255) := by
  simp only [toUnsigned, toSigned]
  norm_num
  by_cases hb : b0 < 128
  · have e1 : b1 + 256 * b0 < 32768 := by omega
    simp only [e1, hb, if_true]
    omega
  · have e1 : ¬ b1 + 256 * b0 < 32768 := by omega
    simp only [e1, hb, if_false]
    omega

/-- On a big-endian host `read_i16` returns 0 when the first stream byte is below 128 and -1
otherwise, whatever the second byte is: the two bytes kept are the sign extension of the
32-bit copy. -/
theorem read_i16_big_endian_host (b : Build) (hbe : b.bigEndian = true) (pre rest : List Nat)
    (b0 b1 : Nat) (h0 : b0 < 256) (h1 : b1 < 256) :
    read_i16 b (handle (pre ++ [b0, b1] ++ rest) pre.length) =
      (.ok (if b0 < 128 then 0 else -1),
        handle (pre ++ [b0, b1] ++ rest) (pre.length + 2)) := by
  obtain ⟨e2, e3⟩ := sign_extension_bytes b0 b1 h0 h1
  rw [read_i16_at b [b0, b1] pre rest _ _ rfl rfl rfl]
  simp only [hbe, if_true]
  congr 2
  simp only [swap_i16, toMem, fromMem, hbe, if_true, leBytes_four]
  simp only [List.reverse_cons, List.reverse_nil, List.nil_append, List.cons_append, leValue,
    List.getD_cons_zero, List.getD_cons_succ, List.set_cons_zero, List.set_cons_succ,
    Nat.mul_zero, Nat.add_zero, e2, e3]
  by_cases hb : b0 < 128
  · simp only [hb, if_true]; decide
  · simp only [hb, if_false]; decide


/-! ## Encoding of bool -/
/-- C11: `write_bool(true)` puts the single byte 1 at the current position and
`write_bool(false)` the single byte 0; `read_bool` on a stream whose next byte is `x` consumes
that byte and returns true if and only if `x` is nonzero. -/
theorem bool_encoding (b : Build) (pre rest : List Nat) (x : Nat) :
    write_bool b true (handle (pre ++ rest) pre.length) =
      (.ok (), handle (pre ++ [1] ++ rest.drop 1) (pre.length + 1)) ∧
    write_bool b false (handle (pre ++ rest) pre.length) =
      (.ok (), handle (pre ++ [0] ++ rest.drop 1) (pre.length + 1)) ∧
    read_bool b (handle (pre ++ x :: rest) pre.length) =
      (.ok (decide (x ≠ 0)), handle (pre ++ x :: rest) (pre.length + 1)) ∧
    (decide (x ≠ 0) = true ↔ x ≠ 0) := by
  refine ⟨?_, ?_, ?_, by simp⟩
  · simpa [write_bool] using write_u8_at b 1 pre rest (pre ++ rest) pre.length rfl rfl
  · simpa [write_bool] using write_u8_at b 0 pre rest (pre ++ rest) pre.length rfl rfl
  · simp only [read_bool, read_u8_at b x pre rest (pre ++ x :: rest) pre.length rfl rfl]


/-! ## Round trip of arrays -/
theorem memOfInts_length (b : Build) (w : Nat) (xs : List Int) :
    (memOfInts b w xs).length = w * xs.length := by
  induction xs with
  | nil => rfl
  | cons x xs ih => simp [memOfInts, toMem_length, ih, Nat.mul_succ]; omega

theorem write_i16_each_at (b : Build) (xs : List Int) (pre rest data : List Nat) (p : Nat)
    (hd : data = pre ++ rest) (hp : p = pre.length) :
    write_i16_each b xs (handle data p) =
      (.ok (), handle (pre ++ memOfInts b 2 xs ++ rest.drop (2 * xs.length))
        (p + 2 * xs.length)) := by
  induction xs generalizing pre rest data p with
  | nil => subst hd; simp [write_i16_each, memOfInts]
  | cons x xs ih =>
    have hw := write_i16_at b x pre rest data p hd hp
    have hi := ih (pre ++ toMem b 2 (toUnsigned 2 x)) (rest.drop 2)
      (pre ++ toMem b 2 (toUnsigned 2 x) ++ rest.drop 2) (p + 2) rfl
      (by simp [hp, toMem_length])
    simp only [write_i16_each, hw, hi, memOfInts, List.length_cons]
    have e : 2 + 2 * xs.length = 2 * (xs.length + 1) := by omega
    simp [Nat.add_assoc, e]

theorem write_i32_each_at (b : Build) (xs : List Int) (pre rest data : List Nat) (p : Nat)
    (hd : data = pre ++ rest) (hp : p = pre.length) :
    write_i32_each b xs (handle data p) =
      (.ok (), handle (pre ++ memOfInts b 4 xs ++ rest.drop (4 * xs.length))
        (p + 4 * xs.length)) := by
  induction xs generalizing pre rest data p with
  | nil => subst hd; simp [write_i32_each, memOfInts]
  | cons x xs ih =>
    have hw := write_i32_at b x pre rest data p hd hp
    have hi := ih (pre ++ toMem b 4 (toUnsigned 4 x)) (rest.drop 4)
      (pre ++ toMem b 4 (toUnsigned 4 x) ++ rest.drop 4) (p + 4) rfl
      (by simp [hp, toMem_length])
    simp only [write_i32_each, hw, hi, memOfInts, List.length_cons]
    have e : 4 + 4 * xs.length = 4 * (xs.length + 1) := by omega
    simp [Nat.add_assoc, e]

theorem toSigned_toUnsigned_two (v : Int) (hv : -32768 ≤ v ∧ v < 32768) :
    toSigned 2 (toUnsigned 2 v % 256 ^ 2) = v := by
  simp only [toSigned, toUnsigned]; norm_num; omega

theorem chunks_memOfInts_two (b : Build) (xs : List Int) (rest : List Nat)
    (hr : ∀ x ∈ xs, -32768 ≤ x ∧ x < 32768) :
    (chunks 2 xs.length (memOfInts b 2 xs ++ rest)).map (fun m => toSigned 2 (fromMem b m)) =
      xs := by
  induction xs with
  | nil => rfl
  | cons x xs ih =>
    have hx := hr x (List.mem_cons_self x xs)
    have ht := ih (fun y hy => hr y (List.mem_cons_of_mem x hy))
    have hl := toMem_length b 2 (toUnsigned 2 x)
    simp only [List.length_cons, chunks, memOfInts, List.append_assoc, List.map_cons]
    rw [List.take_left' hl, List.drop_left' hl, ht, fromMem_toMem, toSigned_toUnsigned_two x hx]

theorem chunks_memOfInts_four (b : Build) (xs : List Int) (rest : List Nat)
    (hr : ∀ x ∈ xs, -2147483648 ≤ x ∧ x < 2147483648) :
    (chunks 4 xs.length (memOfInts b 4 xs ++ rest)).map (fun m => toSigned 4 (fromMem b m)) =
      xs := by
  induction xs with
  | nil => rfl
  | cons x xs ih =>
    have hx := hr x (List.mem_cons_self x xs)
    have ht := ih (fun y hy => hr y (List.mem_cons_of_mem x hy))
    have hl := toMem_length b 4 (toUnsigned 4 x)
    simp only [List.length_cons, chunks, memOfInts, List.append_assoc, List.map_cons]
    rw [List.take_left' hl, List.drop_left' hl, ht, fromMem_toMem, toSigned_toUnsigned_four x hx]


theorem read_array_after_write (w : Nat) (hw : w ≠ 0)
    (mem rest : List Nat) (n : Nat) (hm : mem.length = w * n) :
    fread_or_exception w n (handle (mem ++ rest) 0) =
      (.ok mem, handle (mem ++ rest) (w * n)) := by
  simpa using fread_or_exception_at' [] mem rest (mem ++ rest) 0 w n rfl rfl hw hm

/-- C12: on a little-endian host, for every list of `N ≥ 1` `int16` (respectively `int32`)
values, writing the elements in order with `N` calls of `write_i16` (respectively `write_i32`)
from the start of a stream, then `rewind()`, then `read_i16_array(target, N)` (respectively
`read_i32_array`) succeeds, leaves the written values in `target` in the same order, and
consumes exactly `2N` (respectively `4N`) bytes. -/
theorem array_round_trip_little_endian (b : Build) (hle : b.bigEndian = false)
    (bf : BinaryFile) (hopen : is_open bf = true) (hpos : position bf = 0)
    (xs16 xs32 : List Int) (h16 : xs16 ≠ []) (h32 : xs32 ≠ [])
    (r16 : ∀ x ∈ xs16, -32768 ≤ x ∧ x < 32768)
    (r32 : ∀ x ∈ xs32, -2147483648 ≤ x ∧ x < 2147483648) :
    ((write_i16_each b xs16 bf).1 = .ok () ∧
      (read_i16_array b xs16.length (rewind (write_i16_each b xs16 bf).2)).1 = .ok xs16 ∧
      position (read_i16_array b xs16.length (rewind (write_i16_each b xs16 bf).2)).2 =
        2 * xs16.length) ∧
    ((write_i32_each b xs32 bf).1 = .ok () ∧
      (read_i32_array b xs32.length (rewind (write_i32_each b xs32 bf).2)).1 = .ok xs32 ∧
      position (read_i32_array b xs32.length (rewind (write_i32_each b xs32 bf).2)).2 =
        4 * xs32.length) := by
  rw [eq_handle_of_open bf hopen, hpos]
  have n16 : 0 < xs16.length := List.length_pos.2 h16
  have n32 : 0 < xs32.length := List.length_pos.2 h32
  constructor
  · have hw := write_i16_each_at b xs16 [] (contents bf) (contents bf) 0 rfl rfl
    have hr := read_array_after_write 2 (by decide) (memOfInts b 2 xs16)
      ((contents bf).drop (2 * xs16.length)) xs16.length (memOfInts_length b 2 xs16)
    have hc := chunks_memOfInts_two b xs16 [] r16
    simp only [List.append_nil] at hc
    simp only [List.nil_append, Nat.zero_add] at hw
    rw [hw]
    simp only [rewind_handle, read_i16_array]
    rw [if_neg (by simp [n16])]
    simp only [hle, Bool.false_eq_true, if_false]
    rw [hr]
    simp [hc, position, handle]
  · have hw := write_i32_each_at b xs32 [] (contents bf) (contents bf) 0 rfl rfl
    have hr := read_array_after_write 4 (by decide) (memOfInts b 4 xs32)
      ((contents bf).drop (4 * xs32.length)) xs32.length (memOfInts_length b 4 xs32)
    have hc := chunks_memOfInts_four b xs32 [] r32
    simp only [List.append_nil] at hc
    simp only [List.nil_append, Nat.zero_add] at hw
    rw [hw]
    simp only [rewind_handle, read_i32_array]
    rw [if_neg (by simp [n32])]
    simp only [hle, Bool.false_eq_true, if_false]
    rw [hr]
    simp [hc, position, handle]

/-- Witness for C12: three `int16` values and two `int32` values written over a stream that
already holds three bytes. -/
theorem array_round_trip_little_endian_witness :
    ((write_i16_each ⟨false, false⟩ [1, -2, 12345] (handle [9, 9, 9] 0)).1 = .ok () ∧
      (read_i16_array ⟨false, false⟩ 3
        (rewind (write_i16_each ⟨false, false⟩ [1, -2, 12345] (handle [9, 9, 9] 0)).2)).1 =
          .ok [1, -2, 12345] ∧
      position (read_i16_array ⟨false, false⟩ 3
        (rewind (write_i16_each ⟨false, false⟩ [1, -2, 12345] (handle [9, 9, 9] 0)).2)).2 =
          6) ∧
    ((write_i32_each ⟨false, false⟩ [-100000, 7] (handle [9, 9, 9] 0)).1 = .ok () ∧
      (read_i32_array ⟨false, false⟩ 2
        (rewind (write_i32_each ⟨false, false⟩ [-100000, 7] (handle [9, 9, 9] 0)).2)).1 =
          .ok [-100000, 7] ∧
      position (read_i32_array ⟨false, false⟩ 2
        (rewind (write_i32_each ⟨false, false⟩ [-100000, 7] (handle [9, 9, 9] 0)).2)).2 =
          8) :=
  array_round_trip_little_endian ⟨false, false⟩ rfl (handle [9, 9, 9] 0) rfl rfl
    [1, -2, 12345] [-100000, 7] (by decide) (by decide) (by decide) (by decide)


/-! ## Raw blocks -/
/-- For a block of `n ≥ 1` bytes, `write_raw(block, n)` from the start of a stream succeeds and
puts exactly the bytes of the block there; after `rewind()`, `read_raw(buffer, n)` succeeds,
returns exactly those bytes and advances the position by `n`. -/
theorem raw_round_trip (data block : List Nat) (hn : block ≠ []) :
    write_raw block block.length (handle data 0) =
      (.ok (), handle (block ++ data.drop block.length) block.length) ∧
    read_raw block.length (rewind (write_raw block block.length (handle data 0)).2) =
      (.ok block, handle (block ++ data.drop block.length) block.length) := by
  have hl : block.length ≠ 0 := by simpa using hn
  have hw := fwrite_object_at block [] data data 0 block.length hl rfl rfl rfl
  have hr := fread_object_at block [] (data.drop block.length)
    (block ++ data.drop block.length) 0 block.length hl rfl rfl rfl
  simp only [List.nil_append, Nat.zero_add] at hw hr
  simp only [write_raw, read_raw, hw, rewind_handle, hr, and_self]

/-- C13, for a block of size 0: `write_raw(block, 0)` on an open handle ends with the
"File write error" and `read_raw(buffer, 0)` with the "File read error", although no byte was
requested and none was missing; the stream is left as it was.  With a block of one byte both
calls succeed. -/
theorem raw_zero_size_fails :
    write_raw [] 0 (handle [7, 8] 0) = (.error .fileWriteError, handle [7, 8] 0) ∧
    read_raw 0 (handle [7, 8] 0) = (.error .fileReadError, handle [7, 8] 0) ∧
    write_raw [5] 1 (handle [7, 8] 0) = (.ok (), handle [5, 8] 1) ∧
    read_raw 1 (handle [5, 8] 0) = (.ok [5], handle [5, 8] 1) := by
  decide


/-! ## The two string readers -/
theorem int32_of_le_small (n : Nat) (hn : n ≤ 255) :
    int32_of_le n 0 0 0 = (n : Int) ∧ leBytes 4 n = [n, 0, 0, 0] := by
  constructor
  · simp only [int32_of_le]
    norm_num
    omega
  · rw [leBytes_four]
    refine List.cons_eq_cons.2 ⟨by omega, List.cons_eq_cons.2 ⟨by omega,
      List.cons_eq_cons.2 ⟨by omega, List.cons_eq_cons.2 ⟨by omega, rfl⟩⟩⟩⟩

theorem read_string_long_at (b : Build) (spare : Nat) (target payload pre rest data : List Nat)
    (size p : Nat) (hn : payload ≠ []) (hn' : payload.length ≤ 255) (hsz : 1 ≤ size)
    (hd : data = pre ++ [payload.length, 0, 0, 0] ++ payload ++ rest) (hp : p = pre.length) :
    read_string_long b spare target size (handle data p) =
      (finish_string target payload payload.length size,
        handle data (p + (payload.length + 4))) := by
  have hlen : payload.length ≠ 0 := by simpa using hn
  have hr := read_i32_value_at b payload.length 0 0 0 pre (payload ++ rest) data p
    (by simp [hd]) hp
  rw [(int32_of_le_small payload.length hn').1] at hr
  have hf := fread_or_exception_at' (pre ++ [payload.length, 0, 0, 0]) payload rest data (p + 4)
    1 payload.length (by simp [hd]) (by simp [hp]) (by decide) (by simp)
  unfold read_string_long
  rw [if_neg (by simp; omega), hr]
  have h0 : ¬ ((payload.length : Int) = 0) := by omega
  have h1 : ¬ ((payload.length : Int) < 0) := by omega
  have h2 : ¬ (payload.length > 255 + spare) := by omega
  simp only [h0, h1, h2, if_false, Int.toNat_ofNat, hf]
  simp [Nat.add_assoc, Nat.add_comm 4]

/-- C14: for every stored length `n` in 1..255, every `n` payload bytes `p` (whatever they are)
and every destination size `B ≥ 1`, `read_string` on the stream `[n] ++ p` and
`read_string_long` on the stream `(little-endian int32 of n) ++ p` end with the same outcome
and the same destination contents, and both consume the whole payload; only the width of the
length field consumed differs, 1 byte against 4.  This holds for both host byte orders, and
whatever automatic storage is left beyond the 255 bytes such a payload can take. -/
theorem read_string_long_agrees_with_read_string (b : Build) (spare : Nat)
    (target p pre rest : List Nat) (B : Nat) (hn : p ≠ []) (hn' : p.length ≤ 255)
    (hB : 1 ≤ B) :
    (read_string_long b spare target B
        (handle (pre ++ leBytes 4 p.length ++ p ++ rest) pre.length)).1
      = (read_string b target B (handle (pre ++ [p.length] ++ p ++ rest) pre.length)).1 ∧
    position (read_string b target B (handle (pre ++ [p.length] ++ p ++ rest) pre.length)).2
      = pre.length + 1 + p.length ∧
    position
        (read_string_long b spare target B
          (handle (pre ++ leBytes 4 p.length ++ p ++ rest) pre.length)).2
      = pre.length + 4 + p.length ∧
    (B ≤ target.length →
      (read_string b target B (handle (pre ++ [p.length] ++ p ++ rest) pre.length)).1 =
        .ok ((cstr p.dropLast).take (B - 1)
              ++ List.replicate (B - 1 - (cstr p.dropLast).length + 1) 0 ++ target.drop B)) := by
  have hs := read_string_at b target p pre rest (pre ++ [p.length] ++ p ++ rest) B pre.length
    hn hB (by simp) rfl
  have hl := read_string_long_at b spare target p pre rest
    (pre ++ [p.length, 0, 0, 0] ++ p ++ rest) B pre.length hn hn' hB rfl rfl
  rw [(int32_of_le_small p.length hn').2, hs, hl]
  refine ⟨rfl, ?_, ?_, fun hT => finish_string_eq target p B hn hB hT⟩
  · simp [position, handle]; omega
  · simp [position, handle]; omega

/-- Witness for C14: the payload `41 42 43` (no terminator stored) read into 8 bytes on a
big-endian host. -/
theorem read_string_long_agrees_with_read_string_witness :
    (read_string_long ⟨true, false⟩ 0 [9, 9, 9, 9, 9, 9, 9, 9] 8
        (handle ([7] ++ leBytes 4 3 ++ [0x41, 0x42, 0x43] ++ [5]) 1)).1
      = (read_string ⟨true, false⟩ [9, 9, 9, 9, 9, 9, 9, 9] 8
          (handle ([7] ++ [3] ++ [0x41, 0x42, 0x43] ++ [5]) 1)).1 ∧
    (read_string ⟨true, false⟩ [9, 9, 9, 9, 9, 9, 9, 9] 8
        (handle ([7] ++ [3] ++ [0x41, 0x42, 0x43] ++ [5]) 1)).1 =
      .ok [0x41, 0x42, 0, 0, 0, 0, 0, 0] :=
  have h := read_string_long_agrees_with_read_string ⟨true, false⟩ 0 [9, 9, 9, 9, 9, 9, 9, 9]
    [0x41, 0x42, 0x43] [7] [5] 8 (by decide) (by decide) (by decide)
  ⟨h.1, h.2.2.2 (by decide)⟩


/-! ## What read_string leaves in the destination -/
theorem cstr_take_cstr (a : List Nat) (k : Nat) : cstr ((cstr a).take k) = (cstr a).take k := by
  apply cstr_of_no_zero
  intro c hc
  have h1 : c ∈ cstr a := List.mem_of_mem_take hc
  exact (nonzero_iff c).1 (List.mem_takeWhile_imp h1)

/-- The C string held in the buffer `read_string` leaves, and the byte at index `B - 1`. -/
theorem decoded_buffer (a rest : List Nat) (B : Nat) (hB : 1 ≤ B) :
    cstr ((cstr a).take (B - 1) ++ List.replicate (B - 1 - (cstr a).length + 1) 0 ++ rest) =
      (cstr a).take (B - 1) ∧
    ((cstr a).take (B - 1) ++ List.replicate (B - 1 - (cstr a).length + 1) 0 ++ rest)[B - 1]? =
      some 0 := by
  constructor
  · rw [List.replicate_succ, List.append_assoc, List.cons_append, cstr_append_zero_cons,
      cstr_take_cstr]
  · rw [List.append_assoc, List.getElem?_append_right (by simp [List.length_take])]
    rw [List.getElem?_append_left (by simp [List.length_take]; omega)]
    rw [List.getElem?_replicate]
    simp [List.length_take]
    omega


theorem decoded_eq (p : List Nat) (B : Nat) : decoded p B = (cstr p.dropLast).take (B - 1) := by
  rw [decoded, List.dropLast_eq_take]

theorem decoded_length_le (p : List Nat) (B : Nat) :
    (decoded p B).length ≤ min (p.length - 1) (B - 1) := by
  have h := cstr_length_le (p.take (p.length - 1))
  simp only [decoded, List.length_take] at h ⊢
  omega

/-- The buffer left by a successful `read_string` or `read_string_long`, in the words of
`decoded`. -/
theorem finish_string_decoded (target p : List Nat) (B : Nat) (hn : p ≠ []) (hB : 1 ≤ B)
    (hT : B ≤ target.length) :
    finish_string target p p.length B =
      .ok (decoded p B ++ List.replicate (B - (decoded p B).length) 0 ++ target.drop B) := by
  rw [finish_string_eq target p B hn hB hT, decoded_eq]
  have h : B - 1 - (cstr p.dropLast).length + 1 = B - ((cstr p.dropLast).take (B - 1)).length := by
    simp only [List.length_take]; omega
  rw [h]

/-- C15: for every stored length byte `n ≥ 1`, every `n` payload bytes `p` (whatever the last
one is) and every destination of size `B ≥ 1`, `read_string(buffer, B)` succeeds and leaves in
the buffer the string `decoded p B`, followed by terminators up to index `B - 1`: the longest
terminator-free prefix of the first `n - 1` bytes of `p`, truncated to at most `B - 1`
characters.  Its length is at most `min(n - 1, B - 1)`, `buffer[B - 1]` is 0, and the result
is the same whatever byte `x` is stored last. -/
theorem read_string_decoded (b : Build) (target p pre rest : List Nat) (B x : Nat)
    (hn : p ≠ []) (hB : 1 ≤ B) (hT : B ≤ target.length) :
    (read_string b target B (handle (pre ++ p.length :: p ++ rest) pre.length)).1 =
      .ok (decoded p B ++ List.replicate (B - (decoded p B).length) 0 ++ target.drop B) ∧
    cstr (decoded p B ++ List.replicate (B - (decoded p B).length) 0 ++ target.drop B) =
      decoded p B ∧
    (decoded p B).length ≤ min (p.length - 1) (B - 1) ∧
    (decoded p B ++ List.replicate (B - (decoded p B).length) 0 ++ target.drop B)[B - 1]? =
      some 0 ∧
    (read_string b target B
        (handle (pre ++ p.length :: (p.take (p.length - 1) ++ [x]) ++ rest) pre.length)).1 =
      .ok (decoded p B ++ List.replicate (B - (decoded p B).length) 0 ++ target.drop B) := by
  have hlen : 0 < p.length := List.length_pos.2 hn
  have hs := read_string_at b target p pre rest (pre ++ p.length :: p ++ rest) B pre.length
    hn hB rfl rfl
  have hd := decoded_buffer p.dropLast (target.drop B) B hB
  have hk : B - 1 - (cstr p.dropLast).length + 1 = B - (decoded p B).length := by
    simp only [decoded_eq, List.length_take]; omega
  rw [hk, ← decoded_eq] at hd
  refine ⟨by rw [hs, finish_string_decoded target p B hn hB hT], hd.1,
    decoded_length_le p B, hd.2, ?_⟩
  have hl' : (p.take (p.length - 1) ++ [x]).length = p.length := by
    simp [List.length_take]; omega
  have hs' := read_string_at b target (p.take (p.length - 1) ++ [x]) pre rest
    (pre ++ p.length :: (p.take (p.length - 1) ++ [x]) ++ rest) B pre.length (by simp) hB
    (by rw [hl']) rfl
  rw [hs', hl']
  have hf := finish_string_decoded target (p.take (p.length - 1) ++ [x]) B (by simp) hB hT
  rw [hl'] at hf
  have hdec : decoded (p.take (p.length - 1) ++ [x]) B = decoded p B := by
    simp only [decoded, hl']
    rw [List.take_append_of_le_length (by simp [List.length_take])]
    rw [List.take_take]
    simp
  rw [hf, hdec]

/-- Witness for C15: the payload `41 00 42 43` (last byte not a terminator) read into 8 bytes
gives the string `41`. -/
theorem read_string_decoded_witness :
    (read_string ⟨false, false⟩ [9, 9, 9, 9, 9, 9, 9, 9] 8
        (handle ([7] ++ 4 :: [0x41, 0, 0x42, 0x43] ++ [5]) 1)).1 =
      .ok [0x41, 0, 0, 0, 0, 0, 0, 0] :=
  (read_string_decoded ⟨false, false⟩ [9, 9, 9, 9, 9, 9, 9, 9] [0x41, 0, 0x42, 0x43] [7] [5]
    8 0 (by decide) (by decide) (by decide)).1


/-! ## Bytes consumed by read_string -/
theorem read_string_zero_at (b : Build) (target pre rest data : List Nat) (size p : Nat)
    (hsz : 1 ≤ size) (hd : data = pre ++ 0 :: rest) (hp : p = pre.length) :
    read_string b target size (handle data p) = (poke target 0 0, handle data (p + 1)) := by
  have hr := read_u8_at b 0 pre rest data p hd hp
  unfold read_string
  rw [if_neg (by simp; omega), hr]
  simp

/-- C16: for every stream whose next byte is `n` and in which at least `1 + n` bytes remain,
and every destination of size `B ≥ 1`, `read_string(buffer, B)` succeeds and advances the
stream position by exactly `1 + n` bytes, whatever `B` is; when `n = 0` it advances by exactly
1 byte and the buffer holds the empty string. -/
theorem read_string_consumption (b : Build) (target payload pre rest : List Nat) (n B : Nat)
    (hp : payload.length = n) (hB : 1 ≤ B) (hT : B ≤ target.length) :
    (∃ buf, (read_string b target B (handle (pre ++ n :: payload ++ rest) pre.length)).1 =
      .ok buf) ∧
    position (read_string b target B (handle (pre ++ n :: payload ++ rest) pre.length)).2 =
      pre.length + (1 + n) ∧
    (n = 0 →
      read_string b target B (handle (pre ++ n :: payload ++ rest) pre.length) =
        (.ok (target.set 0 0), handle (pre ++ n :: payload ++ rest) (pre.length + 1)) ∧
      cstr (target.set 0 0) = []) := by
  subst hp
  have hpos : 0 < target.length := by omega
  by_cases h0 : payload = []
  · subst h0
    have hz := read_string_zero_at b target pre rest (pre ++ 0 :: [] ++ rest) B pre.length hB
      (by simp) rfl
    have hpk : poke target 0 0 = .ok (target.set 0 0) := by simp [poke, hpos]
    simp only [List.length_nil]
    rw [hz, hpk]
    refine ⟨⟨_, rfl⟩, by simp [position, handle], fun _ => ⟨rfl, ?_⟩⟩
    cases target with
    | nil => simp at hpos
    | cons t ts => simp [cstr, nonzero]
  · have hs := read_string_at b target payload pre rest (pre ++ payload.length :: payload ++ rest)
      B pre.length h0 hB rfl rfl
    have hf := finish_string_eq target payload B h0 hB hT
    rw [hs, hf]
    refine ⟨⟨_, rfl⟩, by simp [position, handle]; omega, fun hn => ?_⟩
    exact absurd (List.length_eq_zero.1 hn) h0

/-- Witness for C16: the stream `03 41 42 43` read into one byte and into eight bytes, and the
stream `00 41`. -/
theorem read_string_consumption_witness :
    position (read_string ⟨false, false⟩ [9] 1
      (handle ([] ++ 3 :: [0x41, 0x42, 0x43] ++ [5]) 0)).2 = 0 + (1 + 3) ∧
    position (read_string ⟨false, false⟩ [9, 9, 9, 9, 9, 9, 9, 9] 8
      (handle ([] ++ 3 :: [0x41, 0x42, 0x43] ++ [5]) 0)).2 = 0 + (1 + 3) ∧
    read_string ⟨false, false⟩ [9, 9] 2 (handle ([] ++ 0 :: [] ++ [0x41]) 0) =
      (.ok [0, 9], handle ([] ++ 0 :: [] ++ [0x41]) 1) :=
  ⟨(read_string_consumption ⟨false, false⟩ [9] [0x41, 0x42, 0x43] [] [5] 3 1 rfl
      (by decide) (by decide)).2.1,
   (read_string_consumption ⟨false, false⟩ [9, 9, 9, 9, 9, 9, 9, 9] [0x41, 0x42, 0x43] [] [5]
      3 8 rfl (by decide) (by decide)).2.1,
   ((read_string_consumption ⟨false, false⟩ [9, 9] [] [] [0x41] 0 2 rfl
      (by decide) (by decide)).2.2 rfl).1⟩


/-! ## The handle has no error state -/
theorem fread_or_exception_is_open (size count : Nat) (bf : BinaryFile) :
    is_open (fread_or_exception size count bf).2 = is_open bf := by
  rcases bf with ⟨_ | f⟩
  · rfl
  · simp only [fread_or_exception, fread]
    split_ifs <;> rfl

theorem fwrite_or_exception_is_open (src : List Nat) (size count : Nat) (bf : BinaryFile) :
    is_open (fwrite_or_exception src size count bf).2 = is_open bf := by
  rcases bf with ⟨_ | f⟩
  · rfl
  · simp only [fwrite_or_exception, fwrite]
    split_ifs <;> rfl

theorem read_u8_is_open (b : Build) (bf : BinaryFile) :
    is_open (read_u8 b bf).2 = is_open bf := by
  have h := fread_or_exception_is_open 1 1 bf
  unfold read_u8
  cases hr : fread_or_exception 1 1 bf with
  | mk r bf' => rw [hr] at h; cases r <;> exact h

theorem read_i32_is_open (b : Build) (bf : BinaryFile) :
    is_open (read_i32 b bf).2 = is_open bf := by
  have h := fread_or_exception_is_open 4 1 bf
  unfold read_i32
  cases hr : fread_or_exception 4 1 bf with
  | mk r bf' => rw [hr] at h; cases r <;> exact h

theorem read_i16_array_loop_is_open (b : Build) (n : Nat) (bf : BinaryFile) :
    is_open (read_i16_array_loop b n bf).2 = is_open bf := by
  induction n generalizing bf with
  | zero => rfl
  | succ n ih =>
    have h := fread_or_exception_is_open 2 1 bf
    unfold read_i16_array_loop
    cases hr : fread_or_exception 2 1 bf with
    | mk r bf' =>
      rw [hr] at h
      cases r with
      | error e => exact h
      | ok mem =>
        have h2 := ih bf'
        simp only
        cases hl : read_i16_array_loop b n bf' with
        | mk r' bf'' => rw [hl] at h2; cases r' <;> exact h2.trans h

theorem read_i32_array_loop_is_open (b : Build) (n : Nat) (bf : BinaryFile) :
    is_open (read_i32_array_loop b n bf).2 = is_open bf := by
  induction n generalizing bf with
  | zero => rfl
  | succ n ih =>
    have h := fread_or_exception_is_open 4 1 bf
    unfold read_i32_array_loop
    cases hr : fread_or_exception 4 1 bf with
    | mk r bf' =>
      rw [hr] at h
      cases r with
      | error e => exact h
      | ok mem =>
        have h2 := ih bf'
        simp only
        cases hl : read_i32_array_loop b n bf' with
        | mk r' bf'' => rw [hl] at h2; cases r' <;> exact h2.trans h

theorem write_string_is_open (b : Build) (s : List Nat) (bf : BinaryFile) :
    is_open (write_string b s bf).2 = is_open bf := by
  unfold write_string
  simp only
  split
  · rfl
  · have h := fwrite_or_exception_is_open (toMem b 1 (stored_len (s ++ [0]) % 256)) 1 1 bf
    unfold write_u8
    cases hr : fwrite_or_exception (toMem b 1 (stored_len (s ++ [0]) % 256)) 1 1 bf with
    | mk r bf' =>
      rw [hr] at h
      cases r with
      | error e => exact h
      | ok u => exact (fwrite_or_exception_is_open _ _ _ bf').trans h

theorem write_string_long_is_open (b : Build) (s : List Nat) (bf : BinaryFile) :
    is_open (write_string_long b s bf).2 = is_open bf := by
  unfold write_string_long
  simp only
  split
  · rfl
  · have h := fwrite_or_exception_is_open
      (toMem b 4 (toUnsigned 4 ((stored_len (s ++ [0]) : Nat) : Int))) 4 1 bf
    unfold write_i32
    simp only
    cases hr : fwrite_or_exception
        (toMem b 4 (toUnsigned 4 ((stored_len (s ++ [0]) : Nat) : Int))) 4 1 bf with
    | mk r bf' =>
      rw [hr] at h
      cases r with
      | error e => exact h
      | ok u => exact (fwrite_or_exception_is_open _ _ _ bf').trans h

theorem read_string_is_open (b : Build) (target : List Nat) (size : Nat) (bf : BinaryFile) :
    is_open (read_string b target size bf).2 = is_open bf := by
  unfold read_string
  split
  · rfl
  · have h := read_u8_is_open b bf
    cases hr : read_u8 b bf with
    | mk r bf' =>
      rw [hr] at h
      cases r with
      | error e => exact h
      | ok len =>
        simp only
        split
        · exact h
        · have h2 := fread_or_exception_is_open 1 len bf'
          cases hl : fread_or_exception 1 len bf' with
          | mk r' bf'' => rw [hl] at h2; cases r' <;> exact h2.trans h

theorem read_string_long_is_open (b : Build) (spare : Nat) (target : List Nat) (size : Nat)
    (bf : BinaryFile) : is_open (read_string_long b spare target size bf).2 = is_open bf := by
  unfold read_string_long
  split
  · rfl
  · have h := read_i32_is_open b bf
    cases hr : read_i32 b bf with
    | mk r bf' =>
      rw [hr] at h
      cases r with
      | error e => exact h
      | ok len =>
        simp only
        split
        · exact h
        · split
          · exact h
          · split
            · exact h
            · have h2 := fread_or_exception_is_open 1 len.toNat bf'
              cases hl : fread_or_exception 1 len.toNat bf' with
              | mk r' bf'' => rw [hl] at h2; cases r' <;> exact h2.trans h


/-- C17: the handle has no error state.  For every handle, open or not, and every `write_*`,
`read_*` or `rewind` operation with any arguments, whether the operation succeeds or ends with
a read or write failure (or any other way), `is_open()` after the operation has the value it
had before; and `rewind()` on a handle that is not open leaves the handle as it is (and, having
no failure outcome, does not fail). -/
theorem is_open_unchanged (b : Build) (bf : BinaryFile) (i : Int) (u n : Nat) (flag : Bool)
    (s target : List Nat) (spare : Nat) :
    (is_open (write_i8 b i bf).2 = is_open bf ∧
      is_open (write_u8 b u bf).2 = is_open bf ∧
      is_open (write_i16 b i bf).2 = is_open bf ∧
      is_open (write_i32 b i bf).2 = is_open bf ∧
      is_open (write_bool b flag bf).2 = is_open bf ∧
      is_open (write_float b u bf).2 = is_open bf ∧
      is_open (write_string b s bf).2 = is_open bf ∧
      is_open (write_string_long b s bf).2 = is_open bf ∧
      is_open (write_raw s n bf).2 = is_open bf) ∧
    (is_open (read_u8 b bf).2 = is_open bf ∧
      is_open (read_i8 b bf).2 = is_open bf ∧
      is_open (read_bool b bf).2 = is_open bf ∧
      is_open (read_i16 b bf).2 = is_open bf ∧
      is_open (read_i16_array b n bf).2 = is_open bf ∧
      is_open (read_i32 b bf).2 = is_open bf ∧
      is_open (read_i32_array b n bf).2 = is_open bf ∧
      is_open (read_float b bf).2 = is_open bf ∧
      is_open (read_string b target n bf).2 = is_open bf ∧
      is_open (read_string_long b spare target n bf).2 = is_open bf ∧
      is_open (read_raw n bf).2 = is_open bf) ∧
    is_open (rewind bf) = is_open bf ∧
    rewind { fp := none } = { fp := none } := by
  refine ⟨⟨?_, ?_, ?_, ?_, ?_, ?_, write_string_is_open b s bf,
    write_string_long_is_open b s bf, ?_⟩, ⟨read_u8_is_open b bf, ?_, ?_, ?_, ?_,
    read_i32_is_open b bf, ?_, ?_, read_string_is_open b target n bf,
    read_string_long_is_open b spare target n bf, ?_⟩, ?_, rfl⟩
  · exact fwrite_or_exception_is_open _ _ _ bf
  · exact fwrite_or_exception_is_open _ _ _ bf
  · exact fwrite_or_exception_is_open _ _ _ bf
  · exact fwrite_or_exception_is_open _ _ _ bf
  · exact fwrite_or_exception_is_open _ _ _ bf
  · exact fwrite_or_exception_is_open _ _ _ bf
  · exact fwrite_or_exception_is_open _ _ _ bf
  · have h := fread_or_exception_is_open 1 1 bf
    unfold read_i8
    cases hr : fread_or_exception 1 1 bf with
    | mk r bf' => rw [hr] at h; cases r <;> exact h
  · have h := read_u8_is_open b bf
    unfold read_bool
    cases hr : read_u8 b bf with
    | mk r bf' => rw [hr] at h; cases r <;> exact h
  · have h := fread_or_exception_is_open 2 1 bf
    unfold read_i16
    cases hr : fread_or_exception 2 1 bf with
    | mk r bf' => rw [hr] at h; cases r <;> exact h
  · unfold read_i16_array
    split
    · rfl
    · split
      · exact read_i16_array_loop_is_open b n bf
      · have h := fread_or_exception_is_open 2 n bf
        cases hr : fread_or_exception 2 n bf with
        | mk r bf' => rw [hr] at h; cases r <;> exact h
  · unfold read_i32_array
    split
    · rfl
    · split
      · exact read_i32_array_loop_is_open b n bf
      · have h := fread_or_exception_is_open 4 n bf
        cases hr : fread_or_exception 4 n bf with
        | mk r bf' => rw [hr] at h; cases r <;> exact h
  · have h := fread_or_exception_is_open 4 1 bf
    unfold read_float
    cases hr : fread_or_exception 4 1 bf with
    | mk r bf' => rw [hr] at h; cases r <;> exact h
  · exact fread_or_exception_is_open _ _ bf
  · rcases bf with ⟨_ | f⟩ <;> rfl


/-! ## The length computed by the string writers -/
theorem take_cstr_succ (a : List Nat) :
    (a ++ [0]).take ((cstr a).length + 1) = cstr a ++ [0] := by
  induction a with
  | nil => simp [cstr]
  | cons x xs ih =>
    by_cases hx : nonzero x = true
    · simp only [cstr] at ih ⊢
      simp [List.takeWhile_cons, hx, ih]
    · have hx0 : x = 0 := by
        by_contra hne
        exact hx ((nonzero_iff x).2 hne)
      subst hx0
      have hz : nonzero 0 = false := rfl
      simp [cstr, List.takeWhile_cons, hz]

/-- Under the asserted precondition, what `write_string` does for any character array. -/
theorem write_string_asserted_at (b : Build) (string pre rest data : List Nat) (p : Nat)
    (h : strlen (string ++ [0]) < 254) (hd : data = pre ++ rest) (hp : p = pre.length) :
    write_string b string (handle data p) =
      (.ok (), handle (pre ++ (strlen (string ++ [0]) + 1) :: (cstr string ++ [0])
          ++ rest.drop (strlen (string ++ [0]) + 2)) (p + (strlen (string ++ [0]) + 2))) := by
  have hL := strlen_append_zero string
  have hc := cstr_length_le string
  have hst : stored_len (string ++ [0]) = strlen (string ++ [0]) + 1 := by
    unfold stored_len; simp only []; rw [if_neg (by omega)]
  have hmod : (strlen (string ++ [0]) + 1) % 256 % 256 = strlen (string ++ [0]) + 1 := by omega
  have hw := write_u8_at b ((strlen (string ++ [0]) + 1) % 256) pre rest data p hd hp
  rw [hmod] at hw
  have hf := fwrite_or_exception_at' (pre ++ [strlen (string ++ [0]) + 1]) (rest.drop 1)
    (string ++ [0]) (pre ++ [strlen (string ++ [0]) + 1] ++ rest.drop 1) (p + 1) 1
    (strlen (string ++ [0]) + 1) rfl (by simp [hp]) (by decide) (by simp; omega)
  have ht : (string ++ [0]).take (1 * (strlen (string ++ [0]) + 1)) = cstr string ++ [0] := by
    rw [Nat.one_mul, hL, take_cstr_succ]
  rw [ht] at hf
  unfold write_string
  simp only [hst]
  rw [if_neg (by simp; omega), hw]
  simp only [hf]
  simp [Nat.add_assoc, Nat.add_comm 1]

/-- Under the asserted precondition, what `write_string_long` does for any character array. -/
theorem write_string_long_asserted_at (b : Build) (string pre rest data : List Nat) (p : Nat)
    (h : strlen (string ++ [0]) < 254) (hd : data = pre ++ rest) (hp : p = pre.length) :
    write_string_long b string (handle data p) =
      (.ok (), handle (pre ++ toMem b 4 (strlen (string ++ [0]) + 1) ++ (cstr string ++ [0])
          ++ rest.drop (strlen (string ++ [0]) + 5)) (p + (strlen (string ++ [0]) + 5))) := by
  have hL := strlen_append_zero string
  have hc := cstr_length_le string
  have hst : stored_len (string ++ [0]) = strlen (string ++ [0]) + 1 := by
    unfold stored_len; simp only []; rw [if_neg (by omega)]
  have hw := write_i32_at b ((strlen (string ++ [0]) + 1 : Nat) : Int) pre rest data p hd hp
  have hu : toUnsigned 4 ((strlen (string ++ [0]) + 1 : Nat) : Int) =
      strlen (string ++ [0]) + 1 := by
    simp only [toUnsigned]; norm_num; omega
  rw [hu] at hw
  have hf := fwrite_or_exception_at' (pre ++ toMem b 4 (strlen (string ++ [0]) + 1))
    (rest.drop 4) (string ++ [0])
    (pre ++ toMem b 4 (strlen (string ++ [0]) + 1) ++ rest.drop 4) (p + 4) 1
    (strlen (string ++ [0]) + 1) rfl (by simp [hp, toMem_length]) (by decide) (by simp; omega)
  have ht : (string ++ [0]).take (1 * (strlen (string ++ [0]) + 1)) = cstr string ++ [0] := by
    rw [Nat.one_mul, hL, take_cstr_succ]
  rw [ht] at hf
  unfold write_string_long
  simp only [hst]
  rw [if_neg (by simp; omega), hw]
  simp only [hf]
  have e : 4 + (strlen (string ++ [0]) + 1) = strlen (string ++ [0]) + 5 := by omega
  simp [Nat.add_assoc, e]


/-- C18: under the precondition `write_string` and `write_string_long` assert (content length
below 254), the computed `len = content length + 1` lies in 1..254, so the clamp branch
`len > 255` is not taken and `len` is stored as computed; its conversion to the `uint8` length
byte loses nothing; and the number of payload bytes written, `len`, does not exceed the
`content length + 1` bytes of the string's own storage.  Both functions then write the length
field followed by exactly the content and its terminator. -/
theorem asserted_length_needs_no_clamp (b : Build) (string pre rest : List Nat)
    (h : strlen (string ++ [0]) < 254) :
    (1 ≤ strlen (string ++ [0]) + 1 ∧ strlen (string ++ [0]) + 1 ≤ 254) ∧
    ¬ (strlen (string ++ [0]) + 1 > 255) ∧
    stored_len (string ++ [0]) = strlen (string ++ [0]) + 1 ∧
    stored_len (string ++ [0]) % 256 = strlen (string ++ [0]) + 1 ∧
    (stored_len (string ++ [0]) ≤ strlen (string ++ [0]) + 1 ∧
      strlen (string ++ [0]) + 1 ≤ (string ++ [0]).length) ∧
    write_string b string (handle (pre ++ rest) pre.length) =
      (.ok (), handle (pre ++ (strlen (string ++ [0]) + 1) :: (cstr string ++ [0])
          ++ rest.drop (strlen (string ++ [0]) + 2))
        (pre.length + (strlen (string ++ [0]) + 2))) ∧
    write_string_long b string (handle (pre ++ rest) pre.length) =
      (.ok (), handle (pre ++ toMem b 4 (strlen (string ++ [0]) + 1) ++ (cstr string ++ [0])
          ++ rest.drop (strlen (string ++ [0]) + 5))
        (pre.length + (strlen (string ++ [0]) + 5))) ∧
    (cstr string ++ [0]).length = strlen (string ++ [0]) + 1 := by
  have hL := strlen_append_zero string
  have hc := cstr_length_le string
  have hst : stored_len (string ++ [0]) = strlen (string ++ [0]) + 1 := by
    unfold stored_len; simp only []; rw [if_neg (by omega)]
  refine ⟨⟨by omega, by omega⟩, by omega, hst, by rw [hst]; omega,
    ⟨by omega, by simp; omega⟩,
    write_string_asserted_at b string pre rest _ _ h rfl rfl,
    write_string_long_asserted_at b string pre rest _ _ h rfl rfl, by simp [hL]⟩

/-- Witness for C18: the string "hello", written after one byte already in the stream. -/
theorem asserted_length_needs_no_clamp_witness :
    stored_len ([104, 101, 108, 108, 111] ++ [0]) = strlen ([104, 101, 108, 108, 111] ++ [0]) + 1
    ∧ stored_len ([104, 101, 108, 108, 111] ++ [0]) % 256 =
      strlen ([104, 101, 108, 108, 111] ++ [0]) + 1 :=
  have h := asserted_length_needs_no_clamp ⟨false, false⟩ [104, 101, 108, 108, 111] [7] []
    (by decide)
  ⟨h.2.2.1, h.2.2.2.1⟩


/-! ## A negative length in read_string_long -/
/-- A raw read that succeeds returns exactly the bytes requested. -/
theorem fread_or_exception_ok_length (size count : Nat) (bf : BinaryFile) (buf : List Nat)
    (h : (fread_or_exception size count bf).1 = .ok buf) : buf.length = size * count := by
  rcases bf with ⟨_ | f⟩
  · simp [fread_or_exception] at h
  · simp only [fread_or_exception, fread] at h
    by_cases hn : (if size = 0 then 0
        else (List.take (size * count) (List.drop f.pos f.data)).length / size) = count
    · rw [if_neg (by simpa using hn)] at h
      simp only [Except.ok.injEq] at h
      subst h
      by_cases hs : size = 0
      · subst hs; simp
      · rw [if_neg hs] at hn
        have hle := Nat.div_mul_le_self (List.take (size * count) (List.drop f.pos f.data)).length
          size
        rw [hn, Nat.mul_comm] at hle
        have hge : (List.take (size * count) (List.drop f.pos f.data)).length ≤ size * count := by
          simp [List.length_take]
        omega
    · rw [if_pos (by simpa using hn)] at h
      simp at h

/-- Every outcome of `read_string_long` on an open handle, for a destination of `B ≥ 1` bytes:
a negative length field passes the `len == 0` check and makes the call undefined; a length that
does not fit in automatic storage kills the process; any other length ends in the read failure
or in success. -/
theorem read_string_long_outcomes (b : Build) (spare : Nat) (bf : BinaryFile)
    (target : List Nat) (B : Nat) (hB : 1 ≤ B) (hT : B ≤ target.length) (len : Int)
    (hlen : (read_i32 b bf).1 = .ok len) :
    (len < 0 → (read_string_long b spare target B bf).1 = .error .undefinedBehaviour) ∧
    (0 ≤ len → len ≤ 255 + spare →
      (read_string_long b spare target B bf).1 = .error .fileReadError ∨
      ∃ buf, (read_string_long b spare target B bf).1 = .ok buf) ∧
    (255 + (spare : Int) < len →
      (read_string_long b spare target B bf).1 = .error .stackOverflow) := by
  have hassert : ¬ ((!b.ndebug && !decide (B > 0)) = true) := by
    simp; intro _; omega
  have hopen : is_open bf = true := by
    rcases bf with ⟨_ | f⟩
    · simp [read_i32, fread_or_exception] at hlen
    · rfl
  have hopen' : is_open (read_i32 b bf).2 = true := by rw [read_i32_is_open, hopen]
  have hp : 0 < target.length := by omega
  unfold read_string_long
  rw [if_neg hassert]
  cases hr : read_i32 b bf with
  | mk r bf' =>
    rw [hr] at hlen hopen'
    simp only at hlen hopen'
    subst hlen
    simp only
    refine ⟨?_, ?_, ?_⟩
    · intro hneg
      rw [if_neg (by omega), if_pos hneg]
    · intro hnn hfit
      by_cases h0 : len = 0
      · rw [if_pos h0]
        right
        exact ⟨target.set 0 0, by simp [poke, hp]⟩
      · rw [if_neg h0, if_neg (by omega), if_neg (by omega)]
        cases hf : fread_or_exception 1 len.toNat bf' with
        | mk r2 bf'' =>
          cases r2 with
          | error e =>
            left
            have hc := (fread_or_exception_cases 1 len.toNat bf' hopen').1
            rw [hf] at hc
            rcases hc with hc | ⟨buf, hc, _⟩
            · exact hc
            · simp at hc
          | ok buf =>
            right
            have hl := fread_or_exception_ok_length 1 len.toNat bf' buf (by rw [hf])
            have hne : buf ≠ [] := by
              intro hb; rw [hb] at hl; simp at hl; omega
            have hfin := finish_string_eq target buf B hne hB hT
            rw [Nat.one_mul] at hl
            rw [hl] at hfin
            exact ⟨_, hfin⟩
    · intro hbig
      rw [if_neg (by omega), if_neg (by omega), if_pos (by omega)]


/-- C19, for the stream `FF FF FF FF 41 42`: the length field decodes to -1 on either host,
which passes the `len == 0` check, so `char string[len]` is declared with a negative size and
the call is undefined instead of reporting a read failure, whatever automatic storage is
available.  For the stream `05 00 00 00 41 42`, whose length is larger than the bytes that
remain, the call does report the read failure. -/
theorem read_string_long_negative_length (spare : Nat) :
    (read_i32 ⟨false, false⟩ (handle [0xFF, 0xFF, 0xFF, 0xFF, 0x41, 0x42] 0)).1 = .ok (-1) ∧
    read_string_long ⟨false, false⟩ spare [9, 9, 9] 3
        (handle [0xFF, 0xFF, 0xFF, 0xFF, 0x41, 0x42] 0) =
      (.error .undefinedBehaviour, handle [0xFF, 0xFF, 0xFF, 0xFF, 0x41, 0x42] 4) ∧
    read_string_long ⟨true, false⟩ spare [9, 9, 9] 3
        (handle [0xFF, 0xFF, 0xFF, 0xFF, 0x41, 0x42] 0) =
      (.error .undefinedBehaviour, handle [0xFF, 0xFF, 0xFF, 0xFF, 0x41, 0x42] 4) ∧
    read_string_long ⟨false, true⟩ spare [9, 9, 9] 3
        (handle [0xFF, 0xFF, 0xFF, 0xFF, 0x41, 0x42] 0) =
      (.error .undefinedBehaviour, handle [0xFF, 0xFF, 0xFF, 0xFF, 0x41, 0x42] 4) ∧
    (read_string_long ⟨false, false⟩ spare [9, 9, 9] 3 (handle [5, 0, 0, 0, 0x41, 0x42] 0)).1 =
      .error .fileReadError := by
  have h1 : ∀ b : Build, read_i32 b (handle [0xFF, 0xFF, 0xFF, 0xFF, 0x41, 0x42] 0) =
      (.ok (-1), handle [0xFF, 0xFF, 0xFF, 0xFF, 0x41, 0x42] 4) := by
    intro b
    rcases b with ⟨_ | _, _ | _⟩ <;> decide
  have h2 : read_i32 ⟨false, false⟩ (handle [5, 0, 0, 0, 0x41, 0x42] 0) =
      (.ok 5, handle [5, 0, 0, 0, 0x41, 0x42] 4) := by decide
  have h3 : fread_or_exception 1 5 (handle [5, 0, 0, 0, 0x41, 0x42] 4) =
      (.error .fileReadError, handle [5, 0, 0, 0, 0x41, 0x42] 6) := by decide
  have hfit : ¬ (5 > 255 + spare) := by omega
  refine ⟨by rw [h1], ?_, ?_, ?_, ?_⟩
  · simp [read_string_long, h1]
  · simp [read_string_long, h1]
  · simp [read_string_long, h1]
  · simp [read_string_long, h2, h3, hfit]

/-! ## A length too large for automatic storage -/

/-- C10, for the streams `00 00 00 01 41 42` and `FF FF FF 7F 41 42` with 8 MiB of automatic
storage to spare: the length field decodes to 16777216 (respectively 2147483647) on either
host, two bytes follow it, and `read_string_long` sizes `char string[len]` from it before
reading anything, so the process is killed instead of reporting the short read.  With the
stored length 5 the same short stream does end in the read failure. -/
theorem read_string_long_large_length_overflows :
    (read_i32 ⟨false, false⟩ (handle [0, 0, 0, 1, 0x41, 0x42] 0)).1 = .ok 16777216 ∧
    remaining (read_i32 ⟨false, false⟩ (handle [0, 0, 0, 1, 0x41, 0x42] 0)).2 = 2 ∧
    read_string_long ⟨false, false⟩ 8388608 [9, 9, 9] 3 (handle [0, 0, 0, 1, 0x41, 0x42] 0) =
      (.error .stackOverflow, handle [0, 0, 0, 1, 0x41, 0x42] 4) ∧
    read_string_long ⟨true, false⟩ 8388608 [9, 9, 9] 3 (handle [0, 0, 0, 1, 0x41, 0x42] 0) =
      (.error .stackOverflow, handle [0, 0, 0, 1, 0x41, 0x42] 4) ∧
    (read_i32 ⟨false, false⟩ (handle [0xFF, 0xFF, 0xFF, 0x7F, 0x41, 0x42] 0)).1 =
      .ok 2147483647 ∧
    read_string_long ⟨false, false⟩ 8388608 [9, 9, 9] 3
        (handle [0xFF, 0xFF, 0xFF, 0x7F, 0x41, 0x42] 0) =
      (.error .stackOverflow, handle [0xFF, 0xFF, 0xFF, 0x7F, 0x41, 0x42] 4) ∧
    (read_string_long ⟨false, false⟩ 8388608 [9, 9, 9] 3 (handle [5, 0, 0, 0, 0x41, 0x42] 0)).1 =
      .error .fileReadError := by
  decide


/-! ## Raw transfers of at least one byte -/
/-- For `n ≥ 1`, `read_raw(buffer, n)` on an open handle fails exactly when fewer than `n`
bytes remain, and `write_raw(block, n)` of a block of `n` bytes never fails. -/
theorem raw_fails_only_when_short (bf : BinaryFile) (hopen : is_open bf = true)
    (block : List Nat) (n : Nat) (hn : 1 ≤ n) (hb : block.length = n) :
    ((read_raw n bf).1 = .error .fileReadError ↔ remaining bf < n) ∧
    (write_raw block n bf).1 = .ok () := by
  rcases bf with ⟨_ | f⟩
  · simp [is_open] at hopen
  · constructor
    · constructor
      · intro h
        by_contra hge
        simp only [remaining, not_lt] at hge
        have hd : f.data = f.data.take f.pos ++ (f.data.drop f.pos).take n
            ++ (f.data.drop f.pos).drop n := by
          rw [List.append_assoc, List.take_append_drop, List.take_append_drop]
        have hr := fread_object_at ((f.data.drop f.pos).take n) (f.data.take f.pos)
          ((f.data.drop f.pos).drop n) f.data f.pos n (by omega)
          (by simp [List.length_take]; omega) hd (by simp [List.length_take]; omega)
        have : (read_raw n ⟨some f⟩).1 = .ok ((f.data.drop f.pos).take n) := by
          simp only [read_raw]
          have e : (⟨some f⟩ : BinaryFile) = handle f.data f.pos := rfl
          rw [e, hr]
        rw [this] at h
        simp at h
      · intro h
        exact fread_or_exception_short n 1 ⟨some f⟩ rfl (by simpa using h)
    · simp only [write_raw, fwrite_or_exception, fwrite]
      have hl : (List.take (n * 1) block).length / n = 1 := by
        simp [List.length_take, hb]
        exact Nat.div_self (by omega)
      have hs : n ≠ 0 := by omega
      simp only [hs, if_false, hl, ne_eq, not_true_eq_false]


end BinFile
